import Mathlib

set_option linter.unusedVariables false

/-!
Shallow embedding of the gorrent bencode codec.

Bytes are modelled as `Nat` (ASCII codes), byte buffers as `List Nat`.
The decoder follows `Decoder` in the bencode package (the revision using
the errors package and strconv.ParseInt): `nextObject`, `nextInteger`,
`nextString`, `nextList`, `nextDict`, with the mutable fields `pos` and
`Consumed` threaded explicitly.  A Go runtime index-out-of-range fault
(the code indexes `self.stream[idx]` without a bounds check in several
places) is modelled by the distinguished outcome `crash`, separate from
the error returns of the code.  Unbounded `for` loops are modelled with
an explicit fuel parameter chosen large enough (see `decFuel`) that fuel
exhaustion is unreachable for any buffer.

The encoder follows the `Encoder` revision: `encodeObject`,
`encodeString` (which returns nil for an empty string), `encodeInteger`,
`encodeList` and `encodeDict` (which sort the emitted dictionary keys
and return nil for empty containers).
-/

/-- Byte constants: 105 is the letter i, 101 is e, 108 is l, 100 is d,
58 is the colon, 45 is the minus sign, 48 and 57 are 0 and 9. -/
def isDigit (c : Nat) : Bool := decide (48 ≤ c) && decide (c ≤ 57)

/-- Error outcomes of the decoder, one per distinct error return in the
source (`ErrorConsumed`, `ErrorNoTerminator`, and the ad-hoc errors.New
messages), plus `fuelOut`, an artifact of the fuel encoding that is
never reached by any result proved below. -/
inductive DErr where
  | consumed       -- ErrorConsumed
  | noTerminator   -- ErrorNoTerminator
  | badTag         -- nextObject default branch
  | noStartI       -- nextInteger: no starting i
  | invalidByte    -- nextInteger: invalid byte in encoded integer
  | noBytes        -- nextInteger: no bytes in integer
  | leadingZero    -- nextInteger: leading zeros not allowed
  | intParse       -- nextInteger: strconv.ParseInt failed
  | noStrLen       -- nextString: no string length determinator
  | noColon        -- nextString: no colon found before buffer end
  | badLen         -- nextString: could not parse length specifier
  | insufficient   -- nextString: length longer than data buffer
  | notList        -- nextList: first byte is not l
  | notDict        -- nextDict: first byte is not d
  | fuelOut        -- modelling artifact, unreachable with decFuel
  deriving DecidableEq, Repr

/-- Outcome of a decoder routine.  `ok a pos` and `fail e pos` carry the
value of `self.pos` after the call returns; `crash` models a Go runtime
index-out-of-range panic, which aborts the program instead of returning. -/
inductive PRes (α : Type) where
  | crash : PRes α
  | fail (e : DErr) (pos : Nat) : PRes α
  | ok (a : α) (pos : Nat) : PRes α

/-- Bencode value tree: the closed union of the four kinds the decoder
produces (int64, string, []interface, map[string]interface).  A Go map
is represented by its association list; since Go maps cannot hold two
bindings of one key, lists with pairwise distinct keys represent maps,
and a sorted such list is the canonical representative. -/
inductive Bvalue where
  | int (i : Int)
  | str (s : List Nat)
  | list (l : List Bvalue)
  | dict (d : List (List Nat × Bvalue))

/-- Go slice expression s[a:b], as used for the digit runs. -/
def goSlice (s : List Nat) (a b : Nat) : List Nat := (s.drop a).take (b - a)

/-- Numeric value of a decimal digit run (ASCII codes), most significant
first, as strconv computes it. -/
def digitsVal (ds : List Nat) : Nat := ds.foldl (fun a c => a * 10 + (c - 48)) 0

/-- Decimal digit characters of n, most significant first, no leading
zeros, with an explicit fuel argument (n+1 always suffices). -/
def toDecAux : Nat → Nat → List Nat
  | 0, _ => []
  | fuel + 1, n => if n < 10 then [48 + n] else toDecAux fuel (n / 10) ++ [48 + n % 10]

/-- Decimal digit characters of n, as fmt's percent-d writes a Nat. -/
def toDecimal (n : Nat) : List Nat := toDecAux (n + 1) n

/-- strconv.Atoi on the length specifier bytes.  The call site guarantees
the first byte is a digit, so the sign cases of Atoi are unreachable:
the reachable behavior is: all bytes decimal digits and the value within
the 64-bit int range, else an error. -/
def parseNatGo (ds : List Nat) : Option Nat :=
  if ds.isEmpty then none
  else if ds.all isDigit then
    let v := digitsVal ds
    if v < 2 ^ 63 then some v else none
  else none

/-- strconv.ParseInt(s, 10, 64) on the bytes nextInteger slices out.
The call site guarantees the shape: an optional minus sign directly
followed by decimal digits (any other byte was already rejected by the
scanning loop, and a plus sign never reaches this point), so only that
shape is modelled: parse the digits, apply the sign, and fail on empty
digits or 64-bit overflow.  Note ParseInt accepts "-0" and returns 0. -/
def parseInt64 (s : List Nat) : Option Int :=
  if s.isEmpty then none
  else
    let ds := if s.headD 0 = 45 then s.tail else s
    if ds.isEmpty then none
    else if ds.all isDigit then
      let m : Int := (digitsVal ds : Nat)
      let v := if s.headD 0 = 45 then -m else m
      if -(2 ^ 63) ≤ v ∧ v < 2 ^ 63 then some v else none
    else none

/-- Digit-scanning loop of nextInteger, `for self.stream[idx] != 'e'`.
The walked suffix `rem` is `s.drop idx`; reading past the end of the
buffer (empty suffix) is the runtime fault.  After a byte is accepted the
code checks `idx++ >= len(stream)` before the next read, which is the
`rem.tail.isEmpty` test here.  On an error return `self.pos` is `pos`
(already advanced past the letter i). -/
def intLoop (s : List Nat) (pos start : Nat) : Nat → List Nat → (Nat → PRes Int) → PRes Int
  | _, [], _ => .crash
  | idx, c :: rest, finish =>
    if c = 101 then finish idx
    else if ¬ isDigit c then .fail .invalidByte pos
    else if rest.isEmpty then .fail .noTerminator pos
    else intLoop s pos start (idx + 1) rest finish

/-- Checks after the scanning loop of nextInteger: empty digit run,
leading zeros, then strconv.ParseInt on `stream[pos:idx]`. -/
def intFinish (s : List Nat) (pos start idx : Nat) : PRes Int :=
  if start = idx then .fail .noBytes pos
  else if s.getD start 0 = 48 ∧ 1 < idx - start then .fail .leadingZero pos
  else
    match parseInt64 (goSlice s pos idx) with
    | none => .fail .intParse pos
    | some v => .ok v (idx + 1)

/-- Decoder.nextInteger.  `self.pos` is incremented past the letter i
before the unchecked reads at `idx`, so a buffer ending there crashes. -/
def nextInteger (s : List Nat) (pos0 : Nat) : PRes Int :=
  match s[pos0]? with
  | none => .crash
  | some c =>
    if c ≠ 105 then .fail .noStartI pos0
    else
      let pos := pos0 + 1
      match s[pos]? with
      | none => .crash
      | some c1 =>
        let start := if c1 = 45 then pos + 1 else pos
        intLoop s pos start start (s.drop start) (intFinish s pos start)

/-- Colon-scanning loop of nextString, `for self.stream[len_end] != ':'`.
`rem` is `s.drop le`; the code increments `len_end` with a bound check
before every read after the first, so running off the end yields `none`
(the "No string found" error) and never a fault. -/
def scanColon : Nat → List Nat → Option Nat
  | _, [] => none
  | le, c :: rest => if c = 58 then some le else scanColon (le + 1) rest

/-- Decoder.nextString: length digits, colon, then that many raw bytes.
The length check is `l >= len(self.stream[len_end:])`, i.e. the declared
length must be strictly less than the colon position suffix, so a string
that would end exactly at the buffer end still fits. -/
def nextString (s : List Nat) (pos : Nat) : PRes (List Nat) :=
  match s[pos]? with
  | none => .crash
  | some c =>
    if ¬ isDigit c then .fail .noStrLen pos
    else
      match scanColon pos (s.drop pos) with
      | none => .fail .noColon pos
      | some ce =>
        match parseNatGo (goSlice s pos ce) with
        | none => .fail .badLen pos
        | some l =>
          if s.length - ce ≤ l then .fail .insufficient pos
          else .ok (goSlice s (ce + 1) (ce + 1 + l)) (ce + 1 + l)

/-- Go map assignment `res[key] = val` on the association-list
representation: overwrite the binding if the key is present, else append. -/
def mapInsert (d : List (List Nat × Bvalue)) (k : List Nat) (v : Bvalue) :
    List (List Nat × Bvalue) :=
  if d.any (fun e => decide (e.1 = k)) then
    d.map (fun e => if e.1 = k then (k, v) else e)
  else d ++ [(k, v)]

/-- Post-switch statement of nextObject: `if self.pos >= len(self.stream)
then self.Consumed = true`, run on both the value and the error return
paths but not after a runtime fault. -/
def withConsume (s : List Nat) : PRes Bvalue × Bool → PRes Bvalue × Bool
  | (.crash, c) => (.crash, c)
  | (.fail e p, c) => (.fail e p, c || decide (s.length ≤ p))
  | (.ok v p, c) => (.ok v p, c || decide (s.length ≤ p))

mutual

/-- Decoder.nextObject: the Consumed check, the dispatch switch on the
first unread byte (i, l, d, digit, else error), and the Consumed update.
The fuel argument only bounds the recursion; `decFuel` makes it
unreachachable on any buffer. -/
def nextObjectF : Nat → List Nat → Nat → Bool → PRes Bvalue × Bool
  | 0, _, pos, cons => (.fail .fuelOut pos, cons)
  | fuel + 1, s, pos, cons =>
    if cons then (.fail .consumed pos, cons)
    else
      withConsume s
        (match s[pos]? with
        | none => (.crash, cons)
        | some c =>
          if c = 105 then
            (match nextInteger s pos with
             | .crash => .crash
             | .fail e p => .fail e p
             | .ok i p => .ok (.int i) p, cons)
          else if c = 108 then nextListF fuel s pos cons
          else if c = 100 then nextDictF fuel s pos cons
          else if isDigit c then
            (match nextString s pos with
             | .crash => .crash
             | .fail e p => .fail e p
             | .ok b p => .ok (.str b) p, cons)
          else (.fail .badTag pos, cons))
termination_by structural fuel => fuel

/-- Decoder.nextList up to the loop: check the letter l, skip it, and
read the next byte unchecked (a buffer ending right after l crashes);
a closing e yields the empty list, anything else enters the loop. -/
def nextListF : Nat → List Nat → Nat → Bool → PRes Bvalue × Bool
  | 0, _, pos, cons => (.fail .fuelOut pos, cons)
  | fuel + 1, s, pos, cons =>
    match s[pos]? with
    | none => (.crash, cons)
    | some c =>
      if c ≠ 108 then (.fail .notList pos, cons)
      else
        match s[pos + 1]? with
        | none => (.crash, cons)
        | some c1 =>
          if c1 = 101 then (.ok (.list []) (pos + 2), cons)
          else listLoopF fuel s (pos + 1) cons []
termination_by structural fuel => fuel

/-- Element loop of Decoder.nextList: decode an element, append it, fail
with ErrorNoTerminator at buffer end, close on e, else continue. -/
def listLoopF : Nat → List Nat → Nat → Bool → List Bvalue → PRes Bvalue × Bool
  | 0, _, pos, cons, _ => (.fail .fuelOut pos, cons)
  | fuel + 1, s, pos, cons, acc =>
    match nextObjectF fuel s pos cons with
    | (.crash, c) => (.crash, c)
    | (.fail e p, c) => (.fail e p, c)
    | (.ok v p, c) =>
      let acc2 := acc ++ [v]
      if s.length ≤ p then (.fail .noTerminator p, c)
      else if s.getD p 0 = 101 then (.ok (.list acc2) (p + 1), c)
      else listLoopF fuel s p c acc2
termination_by structural fuel => fuel

/-- Decoder.nextDict up to the loop, mirroring nextListF. -/
def nextDictF : Nat → List Nat → Nat → Bool → PRes Bvalue × Bool
  | 0, _, pos, cons => (.fail .fuelOut pos, cons)
  | fuel + 1, s, pos, cons =>
    match s[pos]? with
    | none => (.crash, cons)
    | some c =>
      if c ≠ 100 then (.fail .notDict pos, cons)
      else
        match s[pos + 1]? with
        | none => (.crash, cons)
        | some c1 =>
          if c1 = 101 then (.ok (.dict []) (pos + 2), cons)
          else dictLoopF fuel s (pos + 1) cons []
termination_by structural fuel => fuel

/-- Entry loop of Decoder.nextDict: a key via nextString, a value via
nextObject, `res[key] = val`, then the same termination checks as the
list loop. -/
def dictLoopF : Nat → List Nat → Nat → Bool → List (List Nat × Bvalue) → PRes Bvalue × Bool
  | 0, _, pos, cons, _ => (.fail .fuelOut pos, cons)
  | fuel + 1, s, pos, cons, acc =>
    match nextString s pos with
    | .crash => (.crash, cons)
    | .fail e p => (.fail e p, cons)
    | .ok k p =>
      match nextObjectF fuel s p cons with
      | (.crash, c) => (.crash, c)
      | (.fail e q, c) => (.fail e q, c)
      | (.ok v q, c) =>
        let acc2 := mapInsert acc k v
        if s.length ≤ q then (.fail .noTerminator q, c)
        else if s.getD q 0 = 101 then (.ok (.dict acc2) (q + 1), c)
        else dictLoopF fuel s q c acc2
termination_by structural fuel => fuel

end

/-- Fuel that exceeds the recursion depth of the Go decoder on any
buffer of the given length: every mutual call either moves right in the
buffer or closes a container. -/
def decFuel (s : List Nat) : Nat := 2 * s.length + 2

/-- Decoder state: the stream, the read cursor, and the exported
Consumed flag. -/
structure DecSt where
  stream : List Nat
  pos : Nat
  Consumed : Bool

/-- NewDecoder. -/
def NewDecoder (b : List Nat) : DecSt := ⟨b, 0, false⟩

/-- Decoder.Decode: one object via nextObject, with the state updated on
the value and error return paths (a crash aborts the program, so the
state it leaves is never observed). -/
def Decode (st : DecSt) : PRes Bvalue × DecSt :=
  match nextObjectF (decFuel st.stream) st.stream st.pos st.Consumed with
  | (.crash, _) => (.crash, st)
  | (.fail e p, c) => (.fail e p, ⟨st.stream, p, c⟩)
  | (.ok v p, c) => (.ok v p, ⟨st.stream, p, c⟩)

/-- Byte-lexicographic string comparison, as Go compares strings for
sort.Strings: shorter prefixes come first. -/
def keyLe : List Nat → List Nat → Bool
  | [], _ => true
  | _ :: _, [] => false
  | a :: as, b :: bs => if a < b then true else if a = b then keyLe as bs else false

/-- Strict byte-lexicographic order on keys. -/
def keyLt : List Nat → List Nat → Bool
  | [], [] => false
  | [], _ :: _ => true
  | _ :: _, [] => false
  | a :: as, b :: bs => if a < b then true else if a = b then keyLt as bs else false

/-- Ordering of encoded dictionary entries by their key bytes. -/
def pairLe (p q : List Nat × List Nat) : Prop := keyLe p.1 q.1 = true

instance : DecidableRel pairLe := fun p q => by unfold pairLe; infer_instance

/-- Sort the encoded entries by key bytes (sort.Strings) and concatenate
their emitted bytes. -/
def sortConcat (ps : List (List Nat × List Nat)) : List Nat :=
  ((ps.insertionSort pairLe).map Prod.snd).flatten

/-- Encoder.encodeString: nil for an empty string, else the decimal
length, a colon, and the raw bytes. -/
def encodeString (s : List Nat) : List Nat :=
  if s.length = 0 then [] else toDecimal s.length ++ 58 :: s

/-- Decimal bytes of an int64 as fmt's percent-d writes it. -/
def intDec (i : Int) : List Nat :=
  if i < 0 then 45 :: toDecimal (-i).toNat else toDecimal i.toNat

/-- Encoder.encodeInteger: the letter i, the decimal text, the letter e. -/
def encodeInteger (i : Int) : List Nat := 105 :: intDec i ++ [101]

mutual

/-- Encoder.encodeObject: dispatch on the value kind.  Lists: nil when
empty, else l, the elements in order, e.  Dicts (Encoder.encodeDict):
nil when empty, else d, the entries in ascending byte-lexicographic key
order, e.  The source collects the map keys, sorts them with
sort.Strings and encodes key then looked-up value per key; on the
association-list representation of a map (pairwise distinct keys) this
equals encoding every entry and emitting the encoded entries sorted by
key, which is how `sortConcat` assembles the body below. -/
def encodeObject : Bvalue → List Nat
  | .int i => encodeInteger i
  | .str s => encodeString s
  | .list l => if l.isEmpty then [] else 108 :: encodeItems l ++ [101]
  | .dict d => if d.isEmpty then [] else 100 :: sortConcat (encodeEntries d) ++ [101]

/-- Concatenated encodings of the list elements, in original order. -/
def encodeItems : List Bvalue → List Nat
  | [] => []
  | v :: vs => encodeObject v ++ encodeItems vs

/-- Each dictionary entry paired with its emitted bytes (encoded key
followed by encoded value). -/
def encodeEntries : List (List Nat × Bvalue) → List (List Nat × List Nat)
  | [] => []
  | (k, v) :: es => (k, encodeString k ++ encodeObject v) :: encodeEntries es

end

/-- Package-level Encode: encodeObject into a fresh Encoder. -/
def Encode (v : Bvalue) : List Nat := encodeObject v

/-- Keys in strictly ascending byte-lexicographic order. -/
def ascKeys : List (List Nat) → Bool
  | [] => true
  | [_] => true
  | k1 :: k2 :: ks => keyLt k1 k2 && ascKeys (k2 :: ks)

mutual

/-- Well-formed value of the data model: integers in the int64 range,
string and key lengths representable as int64, and every dictionary in
the canonical map representation: keys strictly ascending (hence
pairwise distinct, as in a Go map). -/
def wfV : Bvalue → Bool
  | .int i => decide (-(2 ^ 63) ≤ i ∧ i < 2 ^ 63)
  | .str s => decide (s.length < 2 ^ 63)
  | .list l => wfL l
  | .dict d => ascKeys (d.map Prod.fst) && wfD d

def wfL : List Bvalue → Bool
  | [] => true
  | v :: vs => wfV v && wfL vs

def wfD : List (List Nat × Bvalue) → Bool
  | [] => true
  | e :: es => decide (e.1.length < 2 ^ 63) && wfV e.2 && wfD es

end

mutual

/-- No empty string, list or dictionary anywhere in the value, and no
empty dictionary key: exactly the values on which the Encoder emits a
nonempty encoding for every subvalue. -/
def noEmptyV : Bvalue → Bool
  | .int _ => true
  | .str s => !s.isEmpty
  | .list l => !l.isEmpty && noEmptyL l
  | .dict d => !d.isEmpty && noEmptyD d

def noEmptyL : List Bvalue → Bool
  | [] => true
  | v :: vs => noEmptyV v && noEmptyL vs

def noEmptyD : List (List Nat × Bvalue) → Bool
  | [] => true
  | e :: es => !e.1.isEmpty && noEmptyV e.2 && noEmptyD es

end

mutual

/-- Fuel consumed by the fueled decoder on the encoding of a value. -/
def needV : Bvalue → Nat
  | .int _ => 1
  | .str _ => 1
  | .list l => 2 + needLoop l
  | .dict d => 2 + needDLoop d

/-- Fuel consumed by the list element loop on the encodings of the
remaining elements. -/
def needLoop : List Bvalue → Nat
  | [] => 0
  | v :: vs => 1 + max (needV v) (needLoop vs)

/-- Fuel consumed by the dictionary entry loop on the encodings of the
remaining entries. -/
def needDLoop : List (List Nat × Bvalue) → Nat
  | [] => 0
  | e :: es => 1 + max (needV e.2) (needDLoop es)

end

/-- Specification of a successful decode of one encoded value at any
position of any surrounding buffer. -/
def DecSpec (v : Bvalue) : Prop :=
  ∀ fuel s p rest, needV v ≤ fuel → s.drop p = encodeObject v ++ rest →
    nextObjectF fuel s p false
      = (.ok v (p + (encodeObject v).length),
         decide (s.length ≤ p + (encodeObject v).length))

/-- Bytes of a dictionary body emitted entry by entry in list order. -/
def entsBytes (es : List (List Nat × Bvalue)) : List Nat :=
  (es.map (fun e => encodeString e.1 ++ encodeObject e.2)).flatten

/-! Basic utilities about buffers, decimal digit runs, and the scanners. -/

theorem drop_cons_getElem {s : List Nat} {p c : Nat} {t : List Nat}
    (h : s.drop p = c :: t) : s[p]? = some c := by
  have h0 := List.getElem?_drop s p 0
  rw [h] at h0
  simpa using h0.symm

theorem drop_cons_tail {s : List Nat} {p c : Nat} {t : List Nat}
    (h : s.drop p = c :: t) : s.drop (p + 1) = t := by
  have := List.tail_drop s p
  rw [h] at this
  simpa using this.symm

theorem drop_add (s : List Nat) (p k : Nat) : s.drop (p + k) = (s.drop p).drop k :=
  (List.drop_drop k p s).symm

theorem drop_ne_nil_lt {s : List Nat} {p c : Nat} {t : List Nat}
    (h : s.drop p = c :: t) : p < s.length := by
  by_contra hh
  push_neg at hh
  rw [List.drop_eq_nil_of_le hh] at h
  exact List.noConfusion h

theorem length_of_drop {s : List Nat} {p : Nat} {u : List Nat}
    (h : s.drop p = u) (hp : p ≤ s.length) : s.length = p + u.length := by
  have := List.length_drop p s
  rw [h] at this
  omega

theorem getD_of_drop {s : List Nat} {p c : Nat} {t : List Nat}
    (h : s.drop p = c :: t) : s.getD p 0 = c := by
  have := drop_cons_getElem h
  simp [List.getD, this]

theorem goSlice_of_drop {s : List Nat} {p : Nat} {u rest : List Nat}
    (h : s.drop p = u ++ rest) {b : Nat} (hb : b = p + u.length) :
    goSlice s p b = u := by
  subst hb
  unfold goSlice
  rw [h]
  simp [List.take_left]

theorem toDecAux_digits : ∀ f n, n < f → ∀ c ∈ toDecAux f n, 48 ≤ c ∧ c ≤ 57 := by
  intro f
  induction f with
  | zero => omega
  | succ f ih =>
    intro n hn c hc
    unfold toDecAux at hc
    by_cases h10 : n < 10
    · simp [h10] at hc
      omega
    · simp [h10] at hc
      rcases hc with hc | hc
      · exact ih (n / 10) (by omega) c hc
      · have : n % 10 < 10 := Nat.mod_lt _ (by omega)
        omega

theorem toDecAux_ne_nil : ∀ f n, n < f → toDecAux f n ≠ [] := by
  intro f
  induction f with
  | zero => omega
  | succ f ih =>
    intro n hn
    unfold toDecAux
    by_cases h10 : n < 10
    · simp [h10]
    · simp [h10]

theorem digitsVal_append (ds : List Nat) (d : Nat) :
    digitsVal (ds ++ [d]) = 10 * digitsVal ds + (d - 48) := by
  unfold digitsVal
  rw [List.foldl_append]
  simp [Nat.mul_comm]

theorem toDecAux_val : ∀ f n, n < f → digitsVal (toDecAux f n) = n := by
  intro f
  induction f with
  | zero => omega
  | succ f ih =>
    intro n hn
    unfold toDecAux
    by_cases h10 : n < 10
    · simp [h10, digitsVal]
    · simp only [h10, if_false]
      rw [digitsVal_append, ih (n / 10) (by omega)]
      have h1 : n % 10 < 10 := Nat.mod_lt _ (by omega)
      have h2 := Nat.div_add_mod n 10
      omega

theorem toDecAux_head_pos : ∀ f n, n < f → 0 < n → ∀ t, toDecAux f n ≠ 48 :: t := by
  intro f
  induction f with
  | zero => omega
  | succ f ih =>
    intro n hn hpos t
    unfold toDecAux
    by_cases h10 : n < 10
    · simp only [h10, if_true]
      intro h
      injection h with h1 h2
      omega
    · simp only [h10, if_false]
      intro h
      obtain ⟨c, u, hcu⟩ := List.exists_cons_of_ne_nil (toDecAux_ne_nil f (n / 10) (by omega))
      rw [hcu] at h
      simp only [List.cons_append] at h
      injection h with h1 h2
      exact ih (n / 10) (by omega) (by omega) u (h1 ▸ hcu)

theorem toDecimal_digits (n : Nat) : ∀ c ∈ toDecimal n, 48 ≤ c ∧ c ≤ 57 :=
  toDecAux_digits (n + 1) n (Nat.lt_succ_self n)

theorem toDecimal_ne_nil (n : Nat) : toDecimal n ≠ [] :=
  toDecAux_ne_nil (n + 1) n (Nat.lt_succ_self n)

theorem toDecimal_val (n : Nat) : digitsVal (toDecimal n) = n :=
  toDecAux_val (n + 1) n (Nat.lt_succ_self n)

theorem toDecimal_head_pos (n : Nat) (hn : 0 < n) : ∀ t, toDecimal n ≠ 48 :: t :=
  toDecAux_head_pos (n + 1) n (Nat.lt_succ_self n) hn

theorem toDecimal_zero : toDecimal 0 = [48] := rfl

theorem toDecimal_all_isDigit (n : Nat) : (toDecimal n).all isDigit = true := by
  rw [List.all_eq_true]
  intro c hc
  have := toDecimal_digits n c hc
  simp [isDigit]
  omega

theorem parseNatGo_toDecimal (n : Nat) (hn : n < 2 ^ 63) :
    parseNatGo (toDecimal n) = some n := by
  unfold parseNatGo
  rw [toDecimal_val]
  have h1 : (toDecimal n).isEmpty = false := by
    rcases List.exists_cons_of_ne_nil (toDecimal_ne_nil n) with ⟨c, t, hct⟩
    rw [hct]; rfl
  rw [h1]
  simp only [Bool.false_eq_true, if_false, toDecimal_all_isDigit, if_true]
  rw [if_pos hn]

theorem pow63_int : ((2 : Int) ^ 63) = 9223372036854775808 := by norm_num

theorem pow63_nat : ((2 : Nat) ^ 63) = 9223372036854775808 := by norm_num

theorem parseInt64_pos (ds : List Nat) (hne : ds ≠ []) (hall : ds.all isDigit = true)
    (h45 : ds.headD 0 ≠ 45) (hrange : (digitsVal ds : Int) < 2 ^ 63) :
    parseInt64 ds = some ((digitsVal ds : Int)) := by
  obtain ⟨c, t, hct⟩ := List.exists_cons_of_ne_nil hne
  subst hct
  simp only [List.headD_cons] at h45
  unfold parseInt64
  simp only [List.isEmpty_cons, Bool.false_eq_true, if_false, List.headD_cons, if_neg h45]
  rw [if_pos hall]
  rw [if_pos ⟨le_trans (by norm_num) (Int.natCast_nonneg _), hrange⟩]

theorem parseInt64_neg (t : List Nat) (hne : t ≠ []) (hall : t.all isDigit = true)
    (hrange : (digitsVal t : Int) ≤ 2 ^ 63) :
    parseInt64 (45 :: t) = some (-(digitsVal t : Int)) := by
  obtain ⟨c, u, hct⟩ := List.exists_cons_of_ne_nil hne
  unfold parseInt64
  simp only [List.isEmpty_cons, Bool.false_eq_true, if_false, List.headD_cons, if_pos rfl,
    List.tail_cons, if_true]
  rw [if_neg (by rw [hct]; simp), if_pos hall]
  rw [if_pos ⟨by rw [pow63_int] at hrange ⊢; omega, by rw [pow63_int]; omega⟩]

theorem parseInt64_intDec (i : Int) (h1 : -(2 ^ 63) ≤ i) (h2 : i < 2 ^ 63) :
    parseInt64 (intDec i) = some i := by
  rw [pow63_int] at h1 h2
  by_cases hneg : i < 0
  · have hd : intDec i = 45 :: toDecimal (-i).toNat := by unfold intDec; rw [if_pos hneg]
    rw [hd, parseInt64_neg _ (toDecimal_ne_nil _) (toDecimal_all_isDigit _)
      (by rw [toDecimal_val, pow63_int]; omega)]
    simp only [toDecimal_val, Option.some.injEq]
    omega
  · have hd : intDec i = toDecimal i.toNat := by unfold intDec; rw [if_neg hneg]
    obtain ⟨c, t, hct⟩ := List.exists_cons_of_ne_nil (toDecimal_ne_nil i.toNat)
    have hc48 : 48 ≤ c ∧ c ≤ 57 := toDecimal_digits _ c (hct ▸ List.mem_cons_self c t)
    rw [hd, parseInt64_pos _ (toDecimal_ne_nil _) (toDecimal_all_isDigit _)
      (by rw [hct]; simp only [List.headD_cons]; omega)
      (by rw [toDecimal_val, pow63_int]; omega)]
    simp only [toDecimal_val, Option.some.injEq]
    omega

theorem scanColon_spec : ∀ pre p rest, (∀ c ∈ pre, c ≠ 58) →
    scanColon p (pre ++ 58 :: rest) = some (p + pre.length) := by
  intro pre
  induction pre with
  | nil => intro p rest h; simp [scanColon]
  | cons c pre ih =>
    intro p rest h
    have hc : c ≠ 58 := h c (List.mem_cons_self c pre)
    have hstep : scanColon p ((c :: pre) ++ 58 :: rest) = scanColon (p + 1) (pre ++ 58 :: rest) := by
      simp only [List.cons_append, scanColon, hc, if_false, List.append_eq]
    rw [hstep, ih (p + 1) rest (fun x hx => h x (List.mem_cons_of_mem c hx))]
    simp only [Option.some.injEq, List.length_cons]
    omega

/-! Behaviour of nextString and nextInteger on well-formed input. -/

theorem nextString_spec (s : List Nat) (p L : Nat) (rest : List Nat)
    (hdrop : s.drop p = toDecimal L ++ 58 :: rest) (hL : L < 2 ^ 63) :
    nextString s p =
      if rest.length < L then .fail .insufficient p
      else .ok (rest.take L) (p + (toDecimal L).length + 1 + L) := by
  obtain ⟨c, ds, hcds⟩ := List.exists_cons_of_ne_nil (toDecimal_ne_nil L)
  have hcdig : 48 ≤ c ∧ c ≤ 57 := toDecimal_digits L c (hcds ▸ List.mem_cons_self c ds)
  have hdropc : s.drop p = c :: (ds ++ 58 :: rest) := by
    rw [hdrop, hcds]; simp
  have hget : s[p]? = some c := drop_cons_getElem hdropc
  have hplen : p < s.length := drop_ne_nil_lt hdropc
  have hslen : s.length = p + ((toDecimal L).length + 1 + rest.length) := by
    have := length_of_drop hdrop (by omega)
    simp at this
    omega
  have hdig : isDigit c = true := by simp [isDigit]; omega
  have hscan : scanColon p (s.drop p) = some (p + (toDecimal L).length) := by
    rw [hdrop]
    exact scanColon_spec _ _ _ (fun x hx => by have := toDecimal_digits L x hx; omega)
  simp only [nextString, hget, hdig, not_true, if_false, hscan,
    goSlice_of_drop hdrop rfl, parseNatGo_toDecimal L hL]
  by_cases hlt : rest.length < L
  · rw [if_pos hlt, if_pos (by omega)]
  · rw [if_neg hlt, if_neg (by omega)]
    have hdrop2 : s.drop (p + (toDecimal L).length + 1) = rest := by
      have h2 : s.drop p = ((toDecimal L ++ [58]) ++ rest) := by
        rw [hdrop]; simp
      have h3 := drop_add s p ((toDecimal L).length + 1)
      rw [h2] at h3
      have h4 : ((toDecimal L ++ [58]) ++ rest).drop ((toDecimal L).length + 1) = rest := by
        have h5 : (toDecimal L ++ [58]).length = (toDecimal L).length + 1 := by simp
        rw [← h5, List.drop_left]
      rw [h4] at h3
      have h6 : p + ((toDecimal L).length + 1) = p + (toDecimal L).length + 1 := by omega
      rw [h6] at h3
      exact h3
    have hsl : goSlice s (p + (toDecimal L).length + 1) (p + (toDecimal L).length + 1 + L)
        = rest.take L := by
      unfold goSlice
      rw [hdrop2]
      congr 1
      omega
    rw [hsl]

theorem intLoop_run (s : List Nat) (pos start : Nat) (fin : Nat → PRes Int) :
    ∀ ds rest idx, (∀ c ∈ ds, 48 ≤ c ∧ c ≤ 57) →
    intLoop s pos start idx (ds ++ 101 :: rest) fin = fin (idx + ds.length) := by
  intro ds
  induction ds with
  | nil => intro rest idx h; simp [intLoop]
  | cons c ds ih =>
    intro rest idx h
    have hc : 48 ≤ c ∧ c ≤ 57 := h c (List.mem_cons_self c ds)
    have h101 : ¬ c = 101 := by omega
    have hdig : isDigit c = true := by simp [isDigit]; omega
    have hne : (ds ++ 101 :: rest).isEmpty = false := by
      cases ds <;> rfl
    simp only [List.cons_append, intLoop, h101, if_false, hdig, not_true, hne,
      Bool.false_eq_true, List.append_eq]
    rw [ih rest (idx + 1) (fun x hx => h x (List.mem_cons_of_mem c hx))]
    congr 1
    simp [List.length_cons]
    omega

theorem nextInteger_spec (s : List Nat) (p : Nat) (i : Int) (rest : List Nat)
    (hdrop : s.drop p = encodeInteger i ++ rest)
    (h1 : -(2 ^ 63) ≤ i) (h2 : i < 2 ^ 63) :
    nextInteger s p = .ok i (p + (encodeInteger i).length) := by
  have hdrop1 : s.drop p = 105 :: (intDec i ++ 101 :: rest) := by
    rw [hdrop]
    simp [encodeInteger]
  have hget : s[p]? = some 105 := drop_cons_getElem hdrop1
  have hdrop2 : s.drop (p + 1) = intDec i ++ 101 :: rest := drop_cons_tail hdrop1
  by_cases hneg : i < 0
  · have hd : intDec i = 45 :: toDecimal (-i).toNat := by unfold intDec; rw [if_pos hneg]
    obtain ⟨c0, ds0, hc0⟩ := List.exists_cons_of_ne_nil (toDecimal_ne_nil (-i).toNat)
    have hdpos : 0 < (toDecimal (-i).toNat).length := by rw [hc0]; simp
    have hdrop3 : s.drop (p + 1) = 45 :: (toDecimal (-i).toNat ++ 101 :: rest) := by
      rw [hdrop2, hd]
      simp
    have hget1 : s[p + 1]? = some 45 := drop_cons_getElem hdrop3
    have hdrop4 : s.drop (p + 1 + 1) = toDecimal (-i).toNat ++ 101 :: rest :=
      drop_cons_tail hdrop3
    have hrun : intLoop s (p + 1) (p + 1 + 1) (p + 1 + 1) (s.drop (p + 1 + 1))
        (intFinish s (p + 1) (p + 1 + 1))
        = intFinish s (p + 1) (p + 1 + 1) (p + 1 + 1 + (toDecimal (-i).toNat).length) := by
      rw [hdrop4]
      exact intLoop_run s _ _ _ _ rest _ (toDecimal_digits _)
    have hgd : s.getD (p + 1 + 1) 0 = c0 :=
      getD_of_drop (t := ds0 ++ 101 :: rest) (by rw [hdrop4, hc0]; simp)
    have hc048 : c0 ≠ 48 := by
      intro hh
      exact toDecimal_head_pos (-i).toNat (by omega) ds0 (by rw [← hh]; exact hc0)
    have hsl : goSlice s (p + 1) (p + 1 + 1 + (toDecimal (-i).toNat).length) = intDec i := by
      apply goSlice_of_drop hdrop2
      rw [hd]
      simp
      omega
    have hlen : (encodeInteger i).length = (toDecimal (-i).toNat).length + 3 := by
      simp [encodeInteger, hd]
    simp only [nextInteger, hget, ne_eq, not_true, if_false, hget1, if_pos rfl, if_true, hrun,
      intFinish, if_neg (show ¬ p + 1 + 1 = p + 1 + 1 + (toDecimal (-i).toNat).length by omega),
      if_neg (show ¬ (s.getD (p + 1 + 1) 0 = 48 ∧
        1 < p + 1 + 1 + (toDecimal (-i).toNat).length - (p + 1 + 1)) from
        fun hh => hc048 (hgd ▸ hh.1)),
      hsl, parseInt64_intDec i h1 h2, hlen]
    congr 1
    omega
  · have hd : intDec i = toDecimal i.toNat := by unfold intDec; rw [if_neg hneg]
    obtain ⟨c0, ds0, hc0⟩ := List.exists_cons_of_ne_nil (toDecimal_ne_nil i.toNat)
    have hc0dig : 48 ≤ c0 ∧ c0 ≤ 57 :=
      toDecimal_digits _ c0 (hc0 ▸ List.mem_cons_self c0 ds0)
    have hdpos : 0 < (toDecimal i.toNat).length := by rw [hc0]; simp
    have hdrop3 : s.drop (p + 1) = c0 :: (ds0 ++ 101 :: rest) := by
      rw [hdrop2, hd, hc0]
      simp
    have hget1 : s[p + 1]? = some c0 := drop_cons_getElem hdrop3
    have hdrop4 : s.drop (p + 1) = toDecimal i.toNat ++ 101 :: rest := by
      rw [hdrop2, hd]
    have hrun : intLoop s (p + 1) (p + 1) (p + 1) (s.drop (p + 1))
        (intFinish s (p + 1) (p + 1))
        = intFinish s (p + 1) (p + 1) (p + 1 + (toDecimal i.toNat).length) := by
      rw [hdrop4]
      exact intLoop_run s _ _ _ _ rest _ (toDecimal_digits _)
    have hgd : s.getD (p + 1) 0 = c0 := getD_of_drop hdrop3
    have hlz : ¬ (s.getD (p + 1) 0 = 48 ∧
        1 < p + 1 + (toDecimal i.toNat).length - (p + 1)) := by
      rw [hgd]
      rintro ⟨hh48, hhlen⟩
      by_cases h0 : i.toNat = 0
      · rw [h0, toDecimal_zero] at hhlen
        simp at hhlen
      · exact toDecimal_head_pos i.toNat (by omega) ds0 (by rw [← hh48]; exact hc0)
    have hsl : goSlice s (p + 1) (p + 1 + (toDecimal i.toNat).length) = intDec i := by
      apply goSlice_of_drop hdrop2
      rw [hd]
    have hlen : (encodeInteger i).length = (toDecimal i.toNat).length + 2 := by
      simp [encodeInteger, hd]
    have hc45 : ¬ c0 = 45 := by omega
    simp only [nextInteger, hget, ne_eq, not_true, if_false, hget1, hc45, hrun,
      intFinish, if_neg (show ¬ p + 1 = p + 1 + (toDecimal i.toNat).length by omega),
      if_neg hlz, hsl, parseInt64_intDec i h1 h2, hlen]
    congr 1
    omega

/-! Order theory of the byte-lexicographic key comparison. -/

theorem keyLe_refl : ∀ a : List Nat, keyLe a a = true := by
  intro a
  induction a with
  | nil => rfl
  | cons c t ih => simp [keyLe, ih]

theorem keyLe_total : ∀ a b : List Nat, keyLe a b = true ∨ keyLe b a = true := by
  intro a
  induction a with
  | nil => intro b; left; rfl
  | cons c t ih =>
    intro b
    cases b with
    | nil => right; rfl
    | cons d u =>
      by_cases hlt : c < d
      · left; simp [keyLe, hlt]
      · by_cases heq : c = d
        · subst heq
          rcases ih u with h | h
          · left; simp [keyLe, h]
          · right; simp [keyLe, h]
        · right
          have : d < c := by omega
          simp [keyLe, this]

theorem keyLe_trans : ∀ a b c : List Nat,
    keyLe a b = true → keyLe b c = true → keyLe a c = true := by
  intro a
  induction a with
  | nil => intro b c h1 h2; rfl
  | cons x t ih =>
    intro b c h1 h2
    cases b with
    | nil => simp [keyLe] at h1
    | cons y u =>
      cases c with
      | nil => simp [keyLe] at h2
      | cons z v =>
        simp only [keyLe] at h1 h2 ⊢
        by_cases hxy : x < y
        · simp only [hxy, if_true] at h1
          by_cases hyz : y < z
          · simp [show x < z by omega]
          · simp only [hyz, if_false] at h2
            by_cases hyz2 : y = z
            · subst hyz2; simp [hxy]
            · simp [hyz2] at h2
        · simp only [hxy, if_false] at h1
          by_cases hxy2 : x = y
          · subst hxy2
            simp only [if_pos rfl] at h1
            by_cases hyz : x < z
            · simp [hyz]
            · simp only [hyz, if_false] at h2 ⊢
              by_cases hyz2 : x = z
              · simp only [hyz2, if_pos rfl] at h2 ⊢
                exact ih u v h1 h2
              · simp [hyz2] at h2
          · simp [hxy2] at h1

theorem keyLe_antisymm : ∀ a b : List Nat,
    keyLe a b = true → keyLe b a = true → a = b := by
  intro a
  induction a with
  | nil =>
    intro b h1 h2
    cases b with
    | nil => rfl
    | cons d u => simp [keyLe] at h2
  | cons c t ih =>
    intro b h1 h2
    cases b with
    | nil => simp [keyLe] at h1
    | cons d u =>
      simp only [keyLe] at h1 h2
      by_cases hlt : c < d
      · simp [show ¬ d < c by omega, show ¬ d = c by omega] at h2
      · by_cases heq : c = d
        · subst heq
          simp only [hlt, if_false, if_pos rfl] at h1 h2
          rw [ih u h1 h2]
        · simp [hlt, heq] at h1

theorem keyLt_irrefl : ∀ a : List Nat, keyLt a a = false := by
  intro a
  induction a with
  | nil => rfl
  | cons c t ih => simp [keyLt, ih]

theorem keyLt_le : ∀ a b : List Nat, keyLt a b = true → keyLe a b = true := by
  intro a
  induction a with
  | nil => intro b h; rfl
  | cons c t ih =>
    intro b h
    cases b with
    | nil => simp [keyLt] at h
    | cons d u =>
      simp only [keyLt] at h
      simp only [keyLe]
      by_cases hlt : c < d
      · simp [hlt]
      · by_cases heq : c = d
        · subst heq
          simp only [hlt, if_false, if_pos rfl] at h ⊢
          exact ih u h
        · simp [hlt, heq] at h

theorem keyLt_ne : ∀ a b : List Nat, keyLt a b = true → a ≠ b := by
  intro a b h hab
  subst hab
  rw [keyLt_irrefl] at h
  exact Bool.noConfusion h

theorem keyLt_trans : ∀ a b c : List Nat,
    keyLt a b = true → keyLt b c = true → keyLt a c = true := by
  intro a
  induction a with
  | nil =>
    intro b c h1 h2
    cases b with
    | nil => simp [keyLt] at h1
    | cons y u =>
      cases c with
      | nil => simp [keyLt] at h2
      | cons z v => rfl
  | cons x t ih =>
    intro b c h1 h2
    cases b with
    | nil => simp [keyLt] at h1
    | cons y u =>
      cases c with
      | nil => simp [keyLt] at h2
      | cons z v =>
        simp only [keyLt] at h1 h2 ⊢
        by_cases hxy : x < y
        · simp only [hxy, if_true] at h1
          by_cases hyz : y < z
          · simp [show x < z by omega]
          · simp only [hyz, if_false] at h2
            by_cases hyz2 : y = z
            · subst hyz2; simp [hxy]
            · simp [hyz2] at h2
        · simp only [hxy, if_false] at h1
          by_cases hxy2 : x = y
          · subst hxy2
            simp only [if_pos rfl] at h1
            by_cases hyz : x < z
            · simp [hyz]
            · simp only [hyz, if_false] at h2 ⊢
              by_cases hyz2 : x = z
              · simp only [hyz2, if_pos rfl] at h2 ⊢
                exact ih u v h1 h2
              · simp [hyz2] at h2
          · simp [hxy2] at h1

/-- Two lists of encoded entries that are permutations of each other,
both sorted by key, with pairwise distinct keys, are equal: this is the
heart of canonical dictionary encoding. -/
theorem perm_sorted_eq : ∀ (l1 l2 : List (List Nat × List Nat)), l1.Perm l2 →
    List.Pairwise pairLe l1 → List.Pairwise pairLe l2 →
    (l1.map Prod.fst).Nodup → l1 = l2 := by
  intro l1
  induction l1 with
  | nil =>
    intro l2 hperm _ _ _
    exact (hperm.nil_eq).symm ▸ rfl
  | cons p t1 ih =>
    intro l2 hperm hs1 hs2 hnd
    rw [List.map_cons] at hnd
    have hnd2 := List.nodup_cons.mp hnd
    cases l2 with
    | nil => exact absurd hperm.symm.nil_eq (by simp)
    | cons q t2 =>
      have hq : q ∈ p :: t1 := hperm.symm.mem_iff.mp (List.mem_cons_self q t2)
      have hpq : q = p := by
        rcases List.mem_cons.mp hq with h | h
        · exact h
        · have hp : p ∈ q :: t2 := hperm.mem_iff.mp (List.mem_cons_self p t1)
          have h1 : pairLe p q := (List.pairwise_cons.mp hs1).1 q h
          have h2 : pairLe q p := by
            rcases List.mem_cons.mp hp with h3 | h3
            · rw [h3]
              exact keyLe_refl q.1
            · exact (List.pairwise_cons.mp hs2).1 p h3
          have hkey : p.1 = q.1 := keyLe_antisymm p.1 q.1 h1 h2
          have hmem : p.1 ∈ t1.map Prod.fst := by
            rw [hkey]
            exact List.mem_map_of_mem Prod.fst h
          exact absurd hmem hnd2.1
      subst hpq
      have htp : t1.Perm t2 := hperm.cons_inv
      rw [ih t2 htp (List.pairwise_cons.mp hs1).2 (List.pairwise_cons.mp hs2).2 hnd2.2]

/-! Canonical dictionary encoding: sortedness and permutation invariance. -/

theorem pairLe_total : ∀ p q : List Nat × List Nat, pairLe p q ∨ pairLe q p :=
  fun p q => keyLe_total p.1 q.1

theorem pairLe_trans : ∀ p q r : List Nat × List Nat, pairLe p q → pairLe q r → pairLe p r :=
  fun p q r h1 h2 => keyLe_trans p.1 q.1 r.1 h1 h2

theorem encodeEntries_eq_map (d : List (List Nat × Bvalue)) :
    encodeEntries d = d.map (fun e => (e.1, encodeString e.1 ++ encodeObject e.2)) := by
  induction d with
  | nil => rfl
  | cons e es ih =>
    obtain ⟨k, v⟩ := e
    simp [encodeEntries, ih]

theorem encodeEntries_keys (d : List (List Nat × Bvalue)) :
    (encodeEntries d).map Prod.fst = d.map Prod.fst := by
  rw [encodeEntries_eq_map, List.map_map]
  rfl

theorem sortConcat_perm_eq (e1 e2 : List (List Nat × List Nat))
    (hperm : e1.Perm e2) (hnd : (e1.map Prod.fst).Nodup) :
    sortConcat e1 = sortConcat e2 := by
  haveI : IsTotal (List Nat × List Nat) pairLe := ⟨pairLe_total⟩
  haveI : IsTrans (List Nat × List Nat) pairLe := ⟨pairLe_trans⟩
  unfold sortConcat
  have hs := perm_sorted_eq (e1.insertionSort pairLe) (e2.insertionSort pairLe)
    (((e1.perm_insertionSort pairLe).trans hperm).trans (e2.perm_insertionSort pairLe).symm)
    (List.sorted_insertionSort pairLe e1) (List.sorted_insertionSort pairLe e2)
    (by
      have hp : (e1.insertionSort pairLe).Perm e1 := e1.perm_insertionSort pairLe
      have := (hp.map Prod.fst).nodup_iff
      exact this.mpr hnd)
  rw [hs]

/-! Dispatch lemmas: one unfolding step of nextObject per tag byte. -/

theorem withConsume_fail (s : List Nat) (e : DErr) (p : Nat) (c : Bool) :
    withConsume s (.fail e p, c) = (.fail e p, c || decide (s.length ≤ p)) := rfl

theorem withConsume_ok (s : List Nat) (v : Bvalue) (p : Nat) (c : Bool) :
    withConsume s (.ok v p, c) = (.ok v p, c || decide (s.length ≤ p)) := rfl

theorem nextObjectF_int (fuel : Nat) (s : List Nat) (pos : Nat)
    (hc : s[pos]? = some 105) :
    nextObjectF (fuel + 1) s pos false =
      withConsume s
        (match nextInteger s pos with
         | .crash => .crash
         | .fail e p => .fail e p
         | .ok i p => .ok (.int i) p, false) := by
  simp only [nextObjectF, Bool.false_eq_true, if_false, hc, if_pos rfl, if_true]

theorem nextObjectF_str (fuel : Nat) (s : List Nat) (pos : Nat) (c : Nat)
    (hc : s[pos]? = some c) (hdig : 48 ≤ c ∧ c ≤ 57) :
    nextObjectF (fuel + 1) s pos false =
      withConsume s
        (match nextString s pos with
         | .crash => .crash
         | .fail e p => .fail e p
         | .ok b p => .ok (.str b) p, false) := by
  have h105 : ¬ c = 105 := by omega
  have h108 : ¬ c = 108 := by omega
  have h100 : ¬ c = 100 := by omega
  have hd : isDigit c = true := by simp [isDigit]; omega
  simp only [nextObjectF, Bool.false_eq_true, if_false, hc, h105, h108, h100, hd, if_true]

theorem nextObjectF_list (fuel : Nat) (s : List Nat) (pos : Nat)
    (hc : s[pos]? = some 108) :
    nextObjectF (fuel + 1) s pos false = withConsume s (nextListF fuel s pos false) := by
  simp only [nextObjectF, Bool.false_eq_true, if_false, hc, if_pos rfl, if_true,
    show ¬ (108 : Nat) = 105 by omega]

theorem nextObjectF_dict (fuel : Nat) (s : List Nat) (pos : Nat)
    (hc : s[pos]? = some 100) :
    nextObjectF (fuel + 1) s pos false = withConsume s (nextDictF fuel s pos false) := by
  simp only [nextObjectF, Bool.false_eq_true, if_false, hc, if_pos rfl, if_true,
    show ¬ (100 : Nat) = 105 by omega, show ¬ (100 : Nat) = 108 by omega]

theorem decFuel_succ (s : List Nat) : decFuel s = (2 * s.length + 1) + 1 := rfl

theorem Decode_eq (s : List Nat) :
    Decode (NewDecoder s) =
      match nextObjectF (decFuel s) s 0 false with
      | (.crash, _) => (.crash, NewDecoder s)
      | (.fail e p, c) => (.fail e p, ⟨s, p, c⟩)
      | (.ok v p, c) => (.ok v p, ⟨s, p, c⟩) := rfl

/-! Round trip: infrastructure. -/

theorem Bvalue.my_ind (P : Bvalue → Prop)
    (hint : ∀ i, P (.int i))
    (hstr : ∀ s, P (.str s))
    (hlist : ∀ l, (∀ v ∈ l, P v) → P (.list l))
    (hdict : ∀ d, (∀ e ∈ d, P e.2) → P (.dict d)) :
    ∀ v, P v := fun v =>
  match v with
  | .int i => hint i
  | .str s => hstr s
  | .list l => hlist l (fun u _ => Bvalue.my_ind P hint hstr hlist hdict u)
  | .dict d => hdict d (fun e _ => Bvalue.my_ind P hint hstr hlist hdict e.2)
termination_by v => sizeOf v
decreasing_by
  · rename_i hu
    have h1 := List.sizeOf_lt_of_mem hu
    simp only [Bvalue.list.sizeOf_spec]
    omega
  · rename_i he
    have h1 := List.sizeOf_lt_of_mem he
    have h2 : sizeOf e.2 < sizeOf e := by
      obtain ⟨a, b⟩ := e
      simp only [Prod.mk.sizeOf_spec]
      omega
    simp only [Bvalue.dict.sizeOf_spec]
    omega

theorem wfL_mem {l : List Bvalue} (h : wfL l = true) : ∀ v ∈ l, wfV v = true := by
  induction l with
  | nil => intro v hv; exact absurd hv (List.not_mem_nil v)
  | cons u us ih =>
    rw [wfL, Bool.and_eq_true] at h
    intro v hv
    rcases List.mem_cons.mp hv with h1 | h1
    · rw [h1]; exact h.1
    · exact ih h.2 v h1

theorem noEmptyL_mem {l : List Bvalue} (h : noEmptyL l = true) :
    ∀ v ∈ l, noEmptyV v = true := by
  induction l with
  | nil => intro v hv; exact absurd hv (List.not_mem_nil v)
  | cons u us ih =>
    rw [noEmptyL, Bool.and_eq_true] at h
    intro v hv
    rcases List.mem_cons.mp hv with h1 | h1
    · rw [h1]; exact h.1
    · exact ih h.2 v h1

theorem wfD_mem {d : List (List Nat × Bvalue)} (h : wfD d = true) :
    ∀ e ∈ d, e.1.length < 2 ^ 63 ∧ wfV e.2 = true := by
  induction d with
  | nil => intro e he; exact absurd he (List.not_mem_nil e)
  | cons u us ih =>
    rw [wfD, Bool.and_eq_true, Bool.and_eq_true] at h
    intro e he
    rcases List.mem_cons.mp he with h1 | h1
    · rw [h1]
      exact ⟨of_decide_eq_true h.1.1, h.1.2⟩
    · exact ih h.2 e h1

theorem noEmptyD_mem {d : List (List Nat × Bvalue)} (h : noEmptyD d = true) :
    ∀ e ∈ d, e.1 ≠ [] ∧ noEmptyV e.2 = true := by
  induction d with
  | nil => intro e he; exact absurd he (List.not_mem_nil e)
  | cons u us ih =>
    rw [noEmptyD, Bool.and_eq_true, Bool.and_eq_true] at h
    intro e he
    rcases List.mem_cons.mp he with h1 | h1
    · rw [h1]
      refine ⟨?_, h.1.2⟩
      have := h.1.1
      simp only [Bool.not_eq_eq_eq_not, Bool.not_true, List.isEmpty_eq_false] at this
      exact this
    · exact ih h.2 e h1

theorem encodeString_of_ne_nil {b : List Nat} (h : b ≠ []) :
    encodeString b = toDecimal b.length ++ 58 :: b := by
  unfold encodeString
  rw [if_neg (by simp [h])]

theorem encodeObject_int (i : Int) : encodeObject (.int i) = encodeInteger i := by
  simp [encodeObject]

theorem encodeObject_str (b : List Nat) : encodeObject (.str b) = encodeString b := by
  simp [encodeObject]

theorem encodeObject_list_ne {l : List Bvalue} (h : l ≠ []) :
    encodeObject (.list l) = 108 :: encodeItems l ++ [101] := by
  rw [encodeObject]
  rw [if_neg (by simp [h])]

theorem encodeObject_dict_ne {d : List (List Nat × Bvalue)} (h : d ≠ []) :
    encodeObject (.dict d) = 100 :: sortConcat (encodeEntries d) ++ [101] := by
  rw [encodeObject]
  rw [if_neg (by simp [h])]

/-- Classification of the first byte of a nonempty encoding: the letter
i, l or d, or a decimal digit; in particular never the letter e. -/
theorem encHead (v : Bvalue) (hne : noEmptyV v = true) :
    ∃ c t, encodeObject v = c :: t ∧
      (c = 105 ∨ c = 108 ∨ c = 100 ∨ (48 ≤ c ∧ c ≤ 57)) := by
  cases v with
  | int i =>
    refine ⟨105, intDec i ++ [101], ?_, Or.inl rfl⟩
    rw [encodeObject_int]
    rfl
  | str b =>
    have hb : b ≠ [] := by
      rw [noEmptyV] at hne
      simp only [Bool.not_eq_eq_eq_not, Bool.not_true, List.isEmpty_eq_false] at hne
      exact hne
    obtain ⟨c, ds, hcds⟩ := List.exists_cons_of_ne_nil (toDecimal_ne_nil b.length)
    refine ⟨c, ds ++ 58 :: b, ?_, Or.inr (Or.inr (Or.inr ?_))⟩
    · rw [encodeObject_str, encodeString_of_ne_nil hb, hcds]
      simp
    · exact toDecimal_digits _ c (hcds ▸ List.mem_cons_self c ds)
  | list l =>
    have hl : l ≠ [] := by
      rw [noEmptyV, Bool.and_eq_true] at hne
      have := hne.1
      simp only [Bool.not_eq_eq_eq_not, Bool.not_true, List.isEmpty_eq_false] at this
      exact this
    refine ⟨108, encodeItems l ++ [101], ?_, Or.inr (Or.inl rfl)⟩
    rw [encodeObject_list_ne hl]
    simp
  | dict d =>
    have hd : d ≠ [] := by
      rw [noEmptyV, Bool.and_eq_true] at hne
      have := hne.1
      simp only [Bool.not_eq_eq_eq_not, Bool.not_true, List.isEmpty_eq_false] at this
      exact this
    refine ⟨100, sortConcat (encodeEntries d) ++ [101], ?_, Or.inr (Or.inr (Or.inl rfl))⟩
    rw [encodeObject_dict_ne hd]
    simp

theorem encHead_ne_close (v : Bvalue) (hne : noEmptyV v = true) :
    ∃ c t, encodeObject v = c :: t ∧ c ≠ 101 := by
  obtain ⟨c, t, hct, hcl⟩ := encHead v hne
  refine ⟨c, t, hct, ?_⟩
  rcases hcl with h | h | h | h <;> omega

theorem encLen_pos (v : Bvalue) (hne : noEmptyV v = true) :
    2 ≤ (encodeObject v).length := by
  cases v with
  | int i =>
    rw [encodeObject_int]
    simp only [encodeInteger, List.cons_append, List.length_cons, List.length_append,
      List.length_singleton]
    omega
  | str b =>
    have hb : b ≠ [] := by
      rw [noEmptyV] at hne
      simp only [Bool.not_eq_eq_eq_not, Bool.not_true, List.isEmpty_eq_false] at hne
      exact hne
    rw [encodeObject_str, encodeString_of_ne_nil hb]
    have h1 : 0 < (toDecimal b.length).length :=
      List.length_pos.mpr (toDecimal_ne_nil b.length)
    simp
    omega
  | list l =>
    have hl : l ≠ [] := by
      rw [noEmptyV, Bool.and_eq_true] at hne
      have := hne.1
      simp only [Bool.not_eq_eq_eq_not, Bool.not_true, List.isEmpty_eq_false] at this
      exact this
    rw [encodeObject_list_ne hl]
    simp
  | dict d =>
    have hd : d ≠ [] := by
      rw [noEmptyV, Bool.and_eq_true] at hne
      have := hne.1
      simp only [Bool.not_eq_eq_eq_not, Bool.not_true, List.isEmpty_eq_false] at this
      exact this
    rw [encodeObject_dict_ne hd]
    simp

theorem DecSpec_int (i : Int) (h1 : -(2 ^ 63) ≤ i) (h2 : i < 2 ^ 63) : DecSpec (.int i) := by
  intro fuel s p rest hfuel hdrop
  rw [encodeObject_int] at hdrop ⊢
  cases fuel with
  | zero => rw [needV] at hfuel; omega
  | succ f =>
    have hdrop1 : s.drop p = 105 :: (intDec i ++ 101 :: rest) := by
      rw [hdrop]; simp [encodeInteger]
    rw [nextObjectF_int f s p (drop_cons_getElem hdrop1)]
    rw [nextInteger_spec s p i rest hdrop h1 h2]
    rw [withConsume_ok]
    simp

theorem DecSpec_str (b : List Nat) (hlen : b.length < 2 ^ 63) (hb : b ≠ []) :
    DecSpec (.str b) := by
  intro fuel s p rest hfuel hdrop
  rw [encodeObject_str, encodeString_of_ne_nil hb] at hdrop ⊢
  cases fuel with
  | zero => rw [needV] at hfuel; omega
  | succ f =>
    have hdrop2 : s.drop p = toDecimal b.length ++ 58 :: (b ++ rest) := by
      rw [hdrop]; simp
    obtain ⟨c, ds, hcds⟩ := List.exists_cons_of_ne_nil (toDecimal_ne_nil b.length)
    have hcdig : 48 ≤ c ∧ c ≤ 57 := toDecimal_digits _ c (hcds ▸ List.mem_cons_self c ds)
    rw [nextObjectF_str f s p c (drop_cons_getElem (t := ds ++ 58 :: (b ++ rest))
      (by rw [hdrop2, hcds]; simp)) hcdig]
    rw [nextString_spec s p b.length (b ++ rest) hdrop2 hlen]
    rw [if_neg (by simp)]
    show withConsume s
      (.ok (.str ((b ++ rest).take b.length)) (p + (toDecimal b.length).length + 1 + b.length),
        false) = _
    rw [show (b ++ rest).take b.length = b from List.take_left b rest, withConsume_ok]
    have hpos : p + (toDecimal b.length).length + 1 + b.length
        = p + (toDecimal b.length ++ 58 :: b).length := by
      simp
      omega
    rw [hpos]
    simp

theorem nextListF_open (fuel : Nat) (s : List Nat) (pos c1 : Nat) (t : List Nat)
    (hdrop : s.drop pos = 108 :: c1 :: t) (hne : c1 ≠ 101) :
    nextListF (fuel + 1) s pos false = listLoopF fuel s (pos + 1) false [] := by
  have h1 : s[pos]? = some 108 := drop_cons_getElem hdrop
  have h2 : s[pos + 1]? = some c1 := drop_cons_getElem (drop_cons_tail hdrop)
  simp only [nextListF, h1, h2, if_neg hne, ne_eq, not_true, if_false]

theorem nextDictF_open (fuel : Nat) (s : List Nat) (pos c1 : Nat) (t : List Nat)
    (hdrop : s.drop pos = 100 :: c1 :: t) (hne : c1 ≠ 101) :
    nextDictF (fuel + 1) s pos false = dictLoopF fuel s (pos + 1) false [] := by
  have h1 : s[pos]? = some 100 := drop_cons_getElem hdrop
  have h2 : s[pos + 1]? = some c1 := drop_cons_getElem (drop_cons_tail hdrop)
  simp only [nextDictF, h1, h2, if_neg hne, ne_eq, not_true, if_false]

theorem rt_listLoop : ∀ (l : List Bvalue), l ≠ [] →
    (∀ v ∈ l, DecSpec v ∧ noEmptyV v = true) →
    ∀ acc fuel s p rest, needLoop l ≤ fuel →
      s.drop p = encodeItems l ++ 101 :: rest →
      listLoopF fuel s p false acc
        = (.ok (.list (acc ++ l)) (p + (encodeItems l).length + 1), false) := by
  intro l
  induction l with
  | nil => intro h; exact absurd rfl h
  | cons v vs ih =>
    intro _ hels acc fuel s p rest hfuel hdrop
    have hv := hels v (List.mem_cons_self v vs)
    cases fuel with
    | zero => rw [needLoop] at hfuel; omega
    | succ f =>
      rw [needLoop] at hfuel
      have hfv : needV v ≤ f := by omega
      have hfvs : needLoop vs ≤ f := by omega
      have hdropv : s.drop p = encodeObject v ++ (encodeItems vs ++ 101 :: rest) := by
        rw [hdrop, encodeItems]
        simp
      obtain ⟨c0, t0, hct0, _⟩ := encHead v hv.2
      have hplt : p < s.length := drop_ne_nil_lt (c := c0)
        (t := t0 ++ (encodeItems vs ++ 101 :: rest)) (by rw [hdropv, hct0]; simp)
      have hslen : s.length
          = p + ((encodeObject v).length + ((encodeItems vs).length + (1 + rest.length))) := by
        have := length_of_drop hdropv (by omega)
        simp at this
        omega
      have hstep := hv.1 f s p (encodeItems vs ++ 101 :: rest) hfv hdropv
      have hdecf : decide (s.length ≤ p + (encodeObject v).length) = false := by
        apply decide_eq_false
        omega
      rw [hdecf] at hstep
      have hdropn : s.drop (p + (encodeObject v).length) = encodeItems vs ++ 101 :: rest := by
        rw [drop_add, hdropv, List.drop_left]
      simp only [listLoopF, hstep]
      rw [if_neg (by omega)]
      cases vs with
      | nil =>
        have hgd : s.getD (p + (encodeObject v).length) 0 = 101 := by
          apply getD_of_drop (t := rest)
          rw [hdropn]
          simp [encodeItems]
        rw [hgd, if_pos rfl,
          show (encodeItems [v]).length = (encodeObject v).length by simp [encodeItems]]
      | cons v2 vs2 =>
        obtain ⟨c2, t2, hct2, hc2ne⟩ := encHead_ne_close v2 (hels v2 (by simp)).2
        have hgd : s.getD (p + (encodeObject v).length) 0 = c2 := by
          apply getD_of_drop (t := t2 ++ (encodeItems vs2 ++ 101 :: rest))
          rw [hdropn, encodeItems, hct2]
          simp
        rw [hgd, if_neg hc2ne]
        rw [ih (by simp) (fun u hu => hels u (List.mem_cons_of_mem v hu)) (acc ++ [v]) f s
          (p + (encodeObject v).length) rest hfvs hdropn]
        have h1 : (acc ++ [v]) ++ v2 :: vs2 = acc ++ v :: v2 :: vs2 := by simp
        have h2 : p + (encodeObject v).length + (encodeItems (v2 :: vs2)).length + 1
            = p + (encodeItems (v :: v2 :: vs2)).length + 1 := by
          have : encodeItems (v :: v2 :: vs2)
              = encodeObject v ++ encodeItems (v2 :: vs2) := rfl
          rw [this]
          simp
          omega
        rw [h1, h2]

theorem rt_dictLoop : ∀ (es : List (List Nat × Bvalue)), es ≠ [] →
    (∀ e ∈ es, DecSpec e.2 ∧ noEmptyV e.2 = true ∧ e.1 ≠ [] ∧ e.1.length < 2 ^ 63) →
    ∀ acc fuel s p rest, needDLoop es ≤ fuel →
      s.drop p = entsBytes es ++ 101 :: rest →
      dictLoopF fuel s p false acc
        = (.ok (.dict (es.foldl (fun a e => mapInsert a e.1 e.2) acc))
            (p + (entsBytes es).length + 1), false) := by
  intro es
  induction es with
  | nil => intro h; exact absurd rfl h
  | cons e es2 ih =>
    obtain ⟨k, v⟩ := e
    intro _ hels acc fuel s p rest hfuel hdrop
    have he := hels (k, v) (List.mem_cons_self (k, v) es2)
    obtain ⟨hdec, hnev, hkne, hklen⟩ := he
    dsimp only at hdec hnev hkne hklen
    cases fuel with
    | zero => rw [needDLoop] at hfuel; omega
    | succ f =>
      rw [needDLoop] at hfuel
      dsimp only at hfuel
      have hfv : needV v ≤ f := by omega
      have hfes : needDLoop es2 ≤ f := by omega
      have hents : entsBytes ((k, v) :: es2)
          = (encodeString k ++ encodeObject v) ++ entsBytes es2 := by
        simp [entsBytes]
      have hdropK : s.drop p
          = toDecimal k.length ++ 58 ::
            (k ++ (encodeObject v ++ (entsBytes es2 ++ 101 :: rest))) := by
        rw [hdrop, hents, encodeString_of_ne_nil hkne]
        simp
      have hstr : nextString s p
          = .ok k (p + (toDecimal k.length).length + 1 + k.length) := by
        rw [nextString_spec s p k.length _ hdropK hklen, if_neg (by simp), List.take_left]
      have hEk : (encodeString k).length = (toDecimal k.length).length + 1 + k.length := by
        rw [encodeString_of_ne_nil hkne]
        simp
        omega
      have hp1 : p + (toDecimal k.length).length + 1 + k.length
          = p + (encodeString k).length := by omega
      have hdropV : s.drop (p + (encodeString k).length)
          = encodeObject v ++ (entsBytes es2 ++ 101 :: rest) := by
        rw [drop_add, hdrop, hents]
        have : (encodeString k ++ encodeObject v) ++ entsBytes es2 ++ 101 :: rest
            = encodeString k ++ (encodeObject v ++ (entsBytes es2 ++ 101 :: rest)) := by
          simp
        rw [this, List.drop_left]
      obtain ⟨c0, t0, hct0, _⟩ := encHead v hnev
      have hplt : p + (encodeString k).length < s.length := drop_ne_nil_lt (c := c0)
        (t := t0 ++ (entsBytes es2 ++ 101 :: rest)) (by rw [hdropV, hct0]; simp)
      have hslen : s.length = p + (encodeString k).length
          + ((encodeObject v).length + ((entsBytes es2).length + (1 + rest.length))) := by
        have := length_of_drop hdropV (by omega)
        simp at this
        omega
      have hstep := hdec f s (p + (encodeString k).length)
        (entsBytes es2 ++ 101 :: rest) hfv hdropV
      have hdecf : decide
          (s.length ≤ p + (encodeString k).length + (encodeObject v).length) = false := by
        apply decide_eq_false
        omega
      rw [hdecf] at hstep
      have hdropn : s.drop (p + (encodeString k).length + (encodeObject v).length)
          = entsBytes es2 ++ 101 :: rest := by
        rw [drop_add, hdropV, List.drop_left]
      simp only [dictLoopF, hstr, hp1, hstep]
      rw [if_neg (by omega)]
      cases es2 with
      | nil =>
        have hgd : s.getD (p + (encodeString k).length + (encodeObject v).length) 0
            = 101 := by
          apply getD_of_drop (t := rest)
          rw [hdropn]
          simp [entsBytes]
        rw [hgd, if_pos rfl]
        have hpos : p + (encodeString k).length + (encodeObject v).length + 1
            = p + (entsBytes [(k, v)]).length + 1 := by
          simp [entsBytes]
          omega
        rw [hpos]
        rfl
      | cons e2 es3 =>
        obtain ⟨k2, v2⟩ := e2
        obtain ⟨_, _, hk2ne, _⟩ := hels (k2, v2) (by simp)
        obtain ⟨c2, ds2, hcds2⟩ := List.exists_cons_of_ne_nil (toDecimal_ne_nil k2.length)
        have hc2dig : 48 ≤ c2 ∧ c2 ≤ 57 :=
          toDecimal_digits _ c2 (hcds2 ▸ List.mem_cons_self c2 ds2)
        have hents2 : entsBytes ((k2, v2) :: es3)
            = c2 :: (ds2 ++ 58 :: k2 ++ encodeObject v2 ++ entsBytes es3) := by
          simp [entsBytes, encodeString_of_ne_nil hk2ne, hcds2]
        have hgd : s.getD (p + (encodeString k).length + (encodeObject v).length) 0
            = c2 := by
          apply getD_of_drop
            (t := (ds2 ++ 58 :: k2 ++ encodeObject v2 ++ entsBytes es3) ++ 101 :: rest)
          rw [hdropn, hents2]
          simp
        rw [hgd, if_neg (by omega)]
        rw [ih (by simp) (fun u hu => hels u (List.mem_cons_of_mem (k, v) hu))
          (mapInsert acc k v) f s
          (p + (encodeString k).length + (encodeObject v).length) rest hfes hdropn]
        have h2 : p + (encodeString k).length + (encodeObject v).length
            + (entsBytes ((k2, v2) :: es3)).length + 1
            = p + (entsBytes ((k, v) :: (k2, v2) :: es3)).length + 1 := by
          simp [entsBytes]
          omega
        rw [h2]
        rfl

/-! Sorted dictionaries: the canonical representation decodes to itself. -/

theorem ascKeys_chain : ∀ ks : List (List Nat),
    ascKeys ks = true ↔ List.Chain' (fun a b => keyLt a b = true) ks := by
  intro ks
  induction ks with
  | nil => simp [ascKeys]
  | cons k1 ks ih =>
    cases ks with
    | nil => simp [ascKeys]
    | cons k2 ks2 =>
      rw [ascKeys, Bool.and_eq_true, List.chain'_cons, ih]

theorem ascKeys_pairwise (ks : List (List Nat)) (h : ascKeys ks = true) :
    List.Pairwise (fun a b => keyLt a b = true) ks := by
  have hch := (ascKeys_chain ks).mp h
  haveI : IsTrans (List Nat) (fun a b => keyLt a b = true) :=
    ⟨fun a b c h1 h2 => keyLt_trans a b c h1 h2⟩
  exact List.chain'_iff_pairwise.mp hch

theorem ascKeys_nodup (ks : List (List Nat)) (h : ascKeys ks = true) : ks.Nodup :=
  (ascKeys_pairwise ks h).imp (fun hab => keyLt_ne _ _ hab)

theorem ascKeys_sorted_entries (d : List (List Nat × Bvalue))
    (h : ascKeys (d.map Prod.fst) = true) :
    List.Pairwise pairLe (encodeEntries d) := by
  have h1 : List.Pairwise (fun a b : List Nat × Bvalue => keyLt a.1 b.1 = true) d := by
    have := ascKeys_pairwise _ h
    rwa [List.pairwise_map] at this
  rw [encodeEntries_eq_map, List.pairwise_map]
  exact h1.imp (fun hab => keyLt_le _ _ hab)

theorem sortConcat_sorted (d : List (List Nat × Bvalue))
    (hasc : ascKeys (d.map Prod.fst) = true) :
    sortConcat (encodeEntries d) = entsBytes d := by
  haveI : IsTotal (List Nat × List Nat) pairLe := ⟨pairLe_total⟩
  haveI : IsTrans (List Nat × List Nat) pairLe := ⟨pairLe_trans⟩
  unfold sortConcat
  rw [List.Sorted.insertionSort_eq (ascKeys_sorted_entries d hasc)]
  rw [encodeEntries_eq_map, List.map_map]
  rfl

theorem mapInsert_not_mem (d : List (List Nat × Bvalue)) (k : List Nat) (v : Bvalue)
    (h : k ∉ d.map Prod.fst) : mapInsert d k v = d ++ [(k, v)] := by
  unfold mapInsert
  rw [if_neg]
  intro hany
  rw [List.any_eq_true] at hany
  obtain ⟨e, he, heq⟩ := hany
  exact h (of_decide_eq_true heq ▸ List.mem_map_of_mem Prod.fst he)

theorem foldIns_fresh : ∀ (es : List (List Nat × Bvalue)) (acc : List (List Nat × Bvalue)),
    (es.map Prod.fst).Nodup → (∀ e ∈ es, e.1 ∉ acc.map Prod.fst) →
    es.foldl (fun a e => mapInsert a e.1 e.2) acc = acc ++ es := by
  intro es
  induction es with
  | nil => intro acc _ _; simp
  | cons e es2 ih =>
    intro acc hnd hdisj
    obtain ⟨k, v⟩ := e
    rw [List.map_cons] at hnd
    have hnd2 := List.nodup_cons.mp hnd
    rw [List.foldl_cons]
    rw [mapInsert_not_mem acc k v (hdisj (k, v) (List.mem_cons_self _ _))]
    rw [ih (acc ++ [(k, v)]) hnd2.2 ?_]
    · simp
    · intro e2 he2
      rw [List.map_append, List.mem_append]
      rintro (h1 | h1)
      · exact hdisj e2 (List.mem_cons_of_mem _ he2) h1
      · simp at h1
        refine hnd2.1 ?_
        rw [← h1]
        exact List.mem_map.mpr ⟨e2, he2, rfl⟩

/-! Fuel bounds: the decoder needs less fuel than twice the encoding length. -/

theorem sortConcat_length (ps : List (List Nat × List Nat)) :
    (sortConcat ps).length = ((ps.map Prod.snd).flatten).length := by
  haveI : IsTotal (List Nat × List Nat) pairLe := ⟨pairLe_total⟩
  haveI : IsTrans (List Nat × List Nat) pairLe := ⟨pairLe_trans⟩
  unfold sortConcat
  have hperm : ((ps.insertionSort pairLe).map Prod.snd).Perm (ps.map Prod.snd) :=
    (ps.perm_insertionSort pairLe).map Prod.snd
  simp only [List.length_flatten]
  exact (hperm.map List.length).sum_eq

theorem needLoop_le : ∀ l : List Bvalue,
    (∀ v ∈ l, noEmptyV v = true ∧ needV v + 1 ≤ 2 * (encodeObject v).length) →
    needLoop l ≤ 2 * (encodeItems l).length := by
  intro l
  induction l with
  | nil => intro h; rw [needLoop]; simp
  | cons v vs ih =>
    intro h
    have hv := h v (List.mem_cons_self v vs)
    have hvs := ih (fun u hu => h u (List.mem_cons_of_mem v hu))
    have henc := encLen_pos v hv.1
    rw [needLoop, encodeItems]
    rw [List.length_append]
    have := hv.2
    rcases Nat.le_total (needV v) (needLoop vs) with hm | hm
    · rw [Nat.max_eq_right hm]
      omega
    · rw [Nat.max_eq_left hm]
      omega

theorem needDLoop_le : ∀ es : List (List Nat × Bvalue),
    (∀ e ∈ es, noEmptyV e.2 = true ∧ needV e.2 + 1 ≤ 2 * (encodeObject e.2).length) →
    needDLoop es ≤ 2 * (entsBytes es).length := by
  intro es
  induction es with
  | nil => intro h; rw [needDLoop]; simp [entsBytes]
  | cons e es2 ih =>
    intro h
    have he := h e (List.mem_cons_self e es2)
    have hes := ih (fun u hu => h u (List.mem_cons_of_mem e hu))
    have henc := encLen_pos e.2 he.1
    have hents : (entsBytes (e :: es2)).length
        = (encodeString e.1).length + (encodeObject e.2).length
          + (entsBytes es2).length := by
      simp [entsBytes]
      omega
    rw [needDLoop, hents]
    have := he.2
    rcases Nat.le_total (needV e.2) (needDLoop es2) with hm | hm
    · rw [Nat.max_eq_right hm]
      omega
    · rw [Nat.max_eq_left hm]
      omega

theorem needV_le : ∀ v : Bvalue, noEmptyV v = true →
    needV v + 1 ≤ 2 * (encodeObject v).length := by
  intro v
  induction v using Bvalue.my_ind with
  | hint i =>
    intro hne
    rw [needV]
    have := encLen_pos (.int i) hne
    omega
  | hstr b =>
    intro hne
    rw [needV]
    have := encLen_pos (.str b) hne
    omega
  | hlist l ih =>
    intro hne
    rw [noEmptyV, Bool.and_eq_true] at hne
    have hlne : l ≠ [] := by
      have := hne.1
      simp only [Bool.not_eq_eq_eq_not, Bool.not_true, List.isEmpty_eq_false] at this
      exact this
    have hloop := needLoop_le l
      (fun u hu => ⟨noEmptyL_mem hne.2 u hu, ih u hu (noEmptyL_mem hne.2 u hu)⟩)
    rw [needV, encodeObject_list_ne hlne]
    simp only [List.cons_append, List.length_cons, List.length_append,
      List.length_singleton]
    omega
  | hdict d ih =>
    intro hne
    rw [noEmptyV, Bool.and_eq_true] at hne
    have hdne : d ≠ [] := by
      have := hne.1
      simp only [Bool.not_eq_eq_eq_not, Bool.not_true, List.isEmpty_eq_false] at this
      exact this
    have hloop := needDLoop_le d
      (fun u hu => ⟨(noEmptyD_mem hne.2 u hu).2, ih u hu (noEmptyD_mem hne.2 u hu).2⟩)
    rw [needV, encodeObject_dict_ne hdne]
    have hsc : (sortConcat (encodeEntries d)).length = (entsBytes d).length := by
      rw [sortConcat_length, encodeEntries_eq_map, List.map_map]
      rfl
    simp only [List.cons_append, List.length_cons, List.length_append,
      List.length_singleton, hsc]
    omega

/-! The main round-trip lemma: decoding an encoding at any buffer position. -/

theorem rt_obj : ∀ v, wfV v = true → noEmptyV v = true → DecSpec v := by
  intro v
  induction v using Bvalue.my_ind with
  | hint i =>
    intro hwf _
    rw [wfV] at hwf
    have h := of_decide_eq_true hwf
    exact DecSpec_int i h.1 h.2
  | hstr b =>
    intro hwf hne
    rw [wfV] at hwf
    rw [noEmptyV] at hne
    simp only [Bool.not_eq_eq_eq_not, Bool.not_true, List.isEmpty_eq_false] at hne
    exact DecSpec_str b (of_decide_eq_true hwf) hne
  | hlist l ih =>
    intro hwf hne
    rw [wfV] at hwf
    rw [noEmptyV, Bool.and_eq_true] at hne
    have hlne : l ≠ [] := by
      have := hne.1
      simp only [Bool.not_eq_eq_eq_not, Bool.not_true, List.isEmpty_eq_false] at this
      exact this
    have hmem : ∀ u ∈ l, DecSpec u ∧ noEmptyV u = true := fun u hu =>
      ⟨ih u hu (wfL_mem hwf u hu) (noEmptyL_mem hne.2 u hu), noEmptyL_mem hne.2 u hu⟩
    intro fuel s p rest hfuel hdrop
    rw [needV] at hfuel
    cases fuel with
    | zero => omega
    | succ f =>
      cases f with
      | zero => omega
      | succ f2 =>
        rw [encodeObject_list_ne hlne] at hdrop ⊢
        have hdropA : s.drop p = 108 :: (encodeItems l ++ 101 :: rest) := by
          rw [hdrop]
          simp
        cases l with
        | nil => exact absurd rfl hlne
        | cons v0 ls =>
          obtain ⟨c1, t1, hct1, hc1ne⟩ :=
            encHead_ne_close v0 (hmem v0 (List.mem_cons_self v0 ls)).2
          have hdropB : s.drop p
              = 108 :: c1 :: (t1 ++ (encodeItems ls ++ 101 :: rest)) := by
            rw [hdropA, encodeItems, hct1]
            simp
          rw [nextObjectF_list (f2 + 1) s p (drop_cons_getElem hdropB)]
          rw [nextListF_open f2 s p c1 _ hdropB hc1ne]
          rw [rt_listLoop (v0 :: ls) (by simp) hmem [] f2 s (p + 1) rest (by omega)
            (drop_cons_tail hdropA)]
          rw [withConsume_ok]
          have hlen2 : p + 1 + (encodeItems (v0 :: ls)).length + 1
              = p + ((108 :: encodeItems (v0 :: ls)) ++ [101]).length := by
            simp
            omega
          rw [hlen2]
          simp
  | hdict d ih =>
    intro hwf hne
    rw [wfV, Bool.and_eq_true] at hwf
    rw [noEmptyV, Bool.and_eq_true] at hne
    have hdne : d ≠ [] := by
      have := hne.1
      simp only [Bool.not_eq_eq_eq_not, Bool.not_true, List.isEmpty_eq_false] at this
      exact this
    have hmem : ∀ e ∈ d, DecSpec e.2 ∧ noEmptyV e.2 = true ∧ e.1 ≠ []
        ∧ e.1.length < 2 ^ 63 := fun e he =>
      ⟨ih e he (wfD_mem hwf.2 e he).2 (noEmptyD_mem hne.2 e he).2,
       (noEmptyD_mem hne.2 e he).2, (noEmptyD_mem hne.2 e he).1,
       (wfD_mem hwf.2 e he).1⟩
    intro fuel s p rest hfuel hdrop
    rw [needV] at hfuel
    cases fuel with
    | zero => omega
    | succ f =>
      cases f with
      | zero => omega
      | succ f2 =>
        rw [encodeObject_dict_ne hdne, sortConcat_sorted d hwf.1] at hdrop ⊢
        have hdropA : s.drop p = 100 :: (entsBytes d ++ 101 :: rest) := by
          rw [hdrop]
          simp
        cases d with
        | nil => exact absurd rfl hdne
        | cons e0 ds =>
          obtain ⟨k0, v0⟩ := e0
          have he0 := hmem (k0, v0) (List.mem_cons_self (k0, v0) ds)
          obtain ⟨c1, ds1, hcds1⟩ :=
            List.exists_cons_of_ne_nil (toDecimal_ne_nil k0.length)
          have hc1dig : 48 ≤ c1 ∧ c1 ≤ 57 :=
            toDecimal_digits _ c1 (hcds1 ▸ List.mem_cons_self c1 ds1)
          have hents0 : entsBytes ((k0, v0) :: ds)
              = c1 :: (ds1 ++ 58 :: k0 ++ encodeObject v0 ++ entsBytes ds) := by
            simp [entsBytes, encodeString_of_ne_nil he0.2.2.1, hcds1]
          have hdropB : s.drop p
              = 100 :: c1 :: ((ds1 ++ 58 :: k0 ++ encodeObject v0 ++ entsBytes ds)
                ++ 101 :: rest) := by
            rw [hdropA, hents0]
            simp
          rw [nextObjectF_dict (f2 + 1) s p (drop_cons_getElem hdropB)]
          rw [nextDictF_open f2 s p c1 _ hdropB (by omega)]
          rw [rt_dictLoop ((k0, v0) :: ds) (by simp) hmem [] f2 s (p + 1) rest (by omega)
            (drop_cons_tail hdropA)]
          rw [foldIns_fresh ((k0, v0) :: ds) [] (ascKeys_nodup _ hwf.1) (by simp)]
          rw [withConsume_ok]
          have hlen2 : p + 1 + (entsBytes ((k0, v0) :: ds)).length + 1
              = p + ((100 :: entsBytes ((k0, v0) :: ds)) ++ [101]).length := by
            simp
            omega
          rw [hlen2]
          simp

/-! Consumed-flag behaviour of Decode. -/

theorem withConsume_ok_inv (s : List Nat) (r : PRes Bvalue × Bool) (v : Bvalue)
    (p : Nat) (c : Bool) (h : withConsume s r = (.ok v p, c)) (hle : s.length ≤ p) :
    c = true := by
  obtain ⟨r1, c1⟩ := r
  cases r1 with
  | crash => simp [withConsume] at h
  | fail e q => simp [withConsume] at h
  | ok w q =>
    rw [withConsume_ok] at h
    have h2 := (Prod.mk.injEq _ _ _ _).mp h
    have h3 := h2.1
    injection h3 with h4 h5
    rw [← h2.2]
    subst h5
    simp [hle]

theorem nextObjectF_ok_cons (fuel : Nat) (s : List Nat) (pos : Nat) (cons : Bool)
    (v : Bvalue) (p : Nat) (c : Bool)
    (h : nextObjectF fuel s pos cons = (.ok v p, c)) (hle : s.length ≤ p) : c = true := by
  cases fuel with
  | zero => simp [nextObjectF] at h
  | succ f =>
    cases cons with
    | true => simp [nextObjectF] at h
    | false =>
      rw [nextObjectF] at h
      simp only [Bool.false_eq_true, if_false] at h
      exact withConsume_ok_inv s _ v p c h hle

theorem nextObjectF_consumed (f : Nat) (s : List Nat) (pos : Nat) :
    nextObjectF (f + 1) s pos true = (.fail .consumed pos, true) := by
  simp [nextObjectF]

/-! Unterminated lists: a buffer that ends inside a list. -/

theorem rt_listLoop_trunc : ∀ (l : List Bvalue), l ≠ [] →
    (∀ v ∈ l, DecSpec v ∧ noEmptyV v = true) →
    ∀ acc fuel s p, needLoop l ≤ fuel →
      s.drop p = encodeItems l →
      listLoopF fuel s p false acc
        = (.fail .noTerminator (p + (encodeItems l).length), true) := by
  intro l
  induction l with
  | nil => intro h; exact absurd rfl h
  | cons v vs ih =>
    intro _ hels acc fuel s p hfuel hdrop
    have hv := hels v (List.mem_cons_self v vs)
    cases fuel with
    | zero => rw [needLoop] at hfuel; omega
    | succ f =>
      rw [needLoop] at hfuel
      have hfv : needV v ≤ f := by omega
      have hfvs : needLoop vs ≤ f := by omega
      have hdropv : s.drop p = encodeObject v ++ encodeItems vs := by
        rw [hdrop, encodeItems]
      obtain ⟨c0, t0, hct0, _⟩ := encHead v hv.2
      have hplt : p < s.length := drop_ne_nil_lt (c := c0)
        (t := t0 ++ encodeItems vs) (by rw [hdropv, hct0]; simp)
      have hslen : s.length = p + ((encodeObject v).length + (encodeItems vs).length) := by
        have := length_of_drop hdropv (by omega)
        simp at this
        omega
      have hstep := hv.1 f s p (encodeItems vs) hfv hdropv
      have hdropn : s.drop (p + (encodeObject v).length) = encodeItems vs := by
        rw [drop_add, hdropv, List.drop_left]
      cases vs with
      | nil =>
        have hdect : decide (s.length ≤ p + (encodeObject v).length) = true := by
          apply decide_eq_true
          simp [encodeItems] at hslen
          omega
        rw [hdect] at hstep
        simp only [listLoopF, hstep]
        rw [if_pos (by simp [encodeItems] at hslen ⊢; omega)]
        have hit : (encodeItems [v]).length = (encodeObject v).length := by
          simp [encodeItems]
        rw [hit]
      | cons v2 vs2 =>
        obtain ⟨c2, t2, hct2, _⟩ := encHead v2 (hels v2 (by simp)).2
        have hlen2 : 0 < (encodeItems (v2 :: vs2)).length := by
          rw [encodeItems, hct2]
          simp
        have hdecf : decide (s.length ≤ p + (encodeObject v).length) = false := by
          apply decide_eq_false
          omega
        rw [hdecf] at hstep
        simp only [listLoopF, hstep]
        rw [if_neg (by omega)]
        have hc2ne : c2 ≠ 101 := by
          obtain ⟨c2p, t2p, hct2p, hne2p⟩ := encHead_ne_close v2 (hels v2 (by simp)).2
          rw [hct2p] at hct2
          injection hct2 with ha hb
          rw [← ha]
          exact hne2p
        have hgd : s.getD (p + (encodeObject v).length) 0 = c2 := by
          apply getD_of_drop (t := t2 ++ encodeItems vs2)
          rw [hdropn, encodeItems, hct2]
          simp
        rw [hgd, if_neg hc2ne]
        rw [ih (by simp) (fun u hu => hels u (List.mem_cons_of_mem v hu)) (acc ++ [v]) f s
          (p + (encodeObject v).length) hfvs hdropn]
        have h2 : p + (encodeObject v).length + (encodeItems (v2 :: vs2)).length
            = p + (encodeItems (v :: v2 :: vs2)).length := by
          have : encodeItems (v :: v2 :: vs2)
              = encodeObject v ++ encodeItems (v2 :: vs2) := rfl
          rw [this]
          simp
          omega
        rw [h2]

/-! Claim theorems. -/

/-- C1 (amended): for every well-formed Value v (int64-range integers,
dictionaries in the canonical map representation with strictly ascending
unique keys) in which no empty string, list, dictionary or dictionary
key occurs, decoding the bytes produced by encoding v yields v again,
with the decoder cursor consuming exactly the encoded bytes and the
stream fully consumed.  (The unamended claim fails because the Encoder
emits nothing for empty strings, lists and dictionaries; see the
counterexample.) -/
theorem C1_round_trip (v : Bvalue) (hwf : wfV v = true) (hne : noEmptyV v = true) :
    Decode (NewDecoder (Encode v))
      = (.ok v (Encode v).length, ⟨Encode v, (Encode v).length, true⟩) := by
  have hdrop : (Encode v).drop 0 = encodeObject v ++ [] := by
    simp [Encode]
  have hfuel : needV v ≤ decFuel (Encode v) := by
    have h1 := needV_le v hne
    unfold decFuel Encode at *
    omega
  have hspec := rt_obj v hwf hne (decFuel (Encode v)) (Encode v) 0 [] hfuel hdrop
  have hdect : decide ((Encode v).length ≤ 0 + (encodeObject v).length) = true := by
    apply decide_eq_true
    simp [Encode]
  rw [hdect] at hspec
  unfold Decode NewDecoder
  simp only
  rw [hspec]
  simp [Encode]

/-- C1 counterexample: the list holding one empty string encodes to the
two bytes of an empty list, which decodes to the empty list, not to the
original value; decode of encode is not the identity on the data model. -/
theorem C1_counterexample :
    Encode (.list [.str []]) = [108, 101] ∧
    (Decode (NewDecoder (Encode (.list [.str []])))).1 = .ok (.list []) 2 ∧
    Bvalue.list [] ≠ Bvalue.list [.str []] :=
  ⟨rfl, rfl, by simp⟩

theorem C1_witness :
    Decode (NewDecoder (Encode (.dict [([99, 111, 119], .str [109, 111, 111]),
        ([115, 112, 97, 109], .str [101, 103, 103, 115])])))
      = (.ok (.dict [([99, 111, 119], .str [109, 111, 111]),
          ([115, 112, 97, 109], .str [101, 103, 103, 115])])
          (Encode (.dict [([99, 111, 119], .str [109, 111, 111]),
            ([115, 112, 97, 109], .str [101, 103, 103, 115])])).length,
         ⟨Encode (.dict [([99, 111, 119], .str [109, 111, 111]),
            ([115, 112, 97, 109], .str [101, 103, 103, 115])]),
          (Encode (.dict [([99, 111, 119], .str [109, 111, 111]),
            ([115, 112, 97, 109], .str [101, 103, 103, 115])])).length, true⟩) :=
  C1_round_trip _ (by decide) (by decide)

/-- C2: the Encoder emits dictionary entries in ascending
byte-lexicographic key order, so two dictionaries holding the same
key/value pairs in different entry order (a Go map built by different
insertion orders) encode to byte-identical output. -/
theorem C2_dict_insertion_order (d1 d2 : List (List Nat × Bvalue))
    (hnd : (d1.map Prod.fst).Nodup) (hperm : d1.Perm d2) :
    Encode (.dict d1) = Encode (.dict d2) := by
  unfold Encode
  by_cases hemp : d1 = []
  · subst hemp
    rw [← hperm.nil_eq]
  · have hemp2 : d2 ≠ [] := by
      intro h
      subst h
      exact hemp hperm.eq_nil
    rw [encodeObject_dict_ne hemp, encodeObject_dict_ne hemp2]
    have hperm2 : (encodeEntries d1).Perm (encodeEntries d2) := by
      rw [encodeEntries_eq_map, encodeEntries_eq_map]
      exact hperm.map _
    have hnd2 : ((encodeEntries d1).map Prod.fst).Nodup := by
      rw [encodeEntries_keys]
      exact hnd
    rw [sortConcat_perm_eq (encodeEntries d1) (encodeEntries d2) hperm2 hnd2]

theorem C2_witness :
    Encode (.dict [([115, 112, 97, 109], .str [101, 103, 103, 115]),
        ([99, 111, 119], .str [109, 111, 111])])
      = Encode (.dict [([99, 111, 119], .str [109, 111, 111]),
          ([115, 112, 97, 109], .str [101, 103, 103, 115])]) :=
  C2_dict_insertion_order _ _ (by decide) (List.Perm.swap _ _ _)

/-- C3: contrary to the claim, the Encoder revision emits the empty byte
sequence for an empty ByteString, an empty List and an empty Dictionary
(each encode function returns nil when its input has length zero), not
the self-delimiting forms 0-colon, le and de. -/
theorem C3_empty_encodes_nothing :
    Encode (.str []) = [] ∧ Encode (.list []) = [] ∧ Encode (.dict []) = [] ∧
    ([] : List Nat) ≠ [48, 58] ∧ ([] : List Nat) ≠ [108, 101] ∧
    ([] : List Nat) ≠ [100, 101] :=
  ⟨rfl, rfl, rfl, by simp, by simp, by simp⟩

/-- C4 counterexample: decoding the bytes of the string i-0e succeeds
and returns the integer 0 with the cursor past the whole input, because
strconv.ParseInt accepts a minus sign followed by the digit zero; the
claim that it fails is refuted. -/
theorem C4_counterexample :
    (Decode (NewDecoder [105, 45, 48, 101])).1 = .ok (.int 0) 4 ∧
    (∀ e p, (PRes.ok (Bvalue.int 0) 4 : PRes Bvalue) ≠ .fail e p) :=
  ⟨rfl, fun e p h => PRes.noConfusion h⟩

/-- C4 (amended): decoding i-0e succeeds with the integer value 0 and
consumes the whole input (the decoder does not reject negative zero),
while decoding i-e, a bare minus sign with no digits, fails with the
no-bytes-in-integer error. -/
theorem C4_negative_zero :
    (Decode (NewDecoder [105, 45, 48, 101])).1 = .ok (.int 0) 4 ∧
    (Decode (NewDecoder [105, 45, 48, 101])).2.Consumed = true ∧
    (Decode (NewDecoder [105, 45, 101])).1 = .fail .noBytes 1 :=
  ⟨rfl, rfl, rfl⟩

/-- C10: contrary to the claim, the decoder reads positions at or beyond
the buffer length on truncated inputs: the empty buffer, a lone letter i
and a lone letter d all make the Go code index the stream out of range,
a runtime panic rather than a returned value or error. -/
theorem C10_out_of_bounds :
    (Decode (NewDecoder [])).1 = .crash ∧
    (Decode (NewDecoder [105])).1 = .crash ∧
    (Decode (NewDecoder [100])).1 = .crash :=
  ⟨rfl, rfl, rfl⟩

theorem Decode_fst_fail (s : List Nat) (e : DErr) (p : Nat) (B : Bool)
    (h : nextObjectF (decFuel s) s 0 false = (.fail e p, B)) :
    (Decode (NewDecoder s)).1 = .fail e p := by
  rw [Decode_eq, h]

theorem Decode_fst_ok (s : List Nat) (v : Bvalue) (p : Nat) (B : Bool)
    (h : nextObjectF (decFuel s) s 0 false = (.ok v p, B)) :
    (Decode (NewDecoder s)).1 = .ok v p := by
  rw [Decode_eq, h]

/-- C5: decoding an integer whose digit run starts with the zero digit
and has more than one digit fails with the leading-zeros error (with the
cursor left just past the letter i), while decoding i0e succeeds and
returns the integer 0. -/
theorem C5_leading_zero (ds : List Nat) (hd : ∀ c ∈ ds, 48 ≤ c ∧ c ≤ 57)
    (t : List Nat) (hz : ds = 48 :: t) (hlen : 1 < ds.length) :
    (Decode (NewDecoder (105 :: (ds ++ [101])))).1 = .fail .leadingZero 1 ∧
    (Decode (NewDecoder [105, 48, 101])).1 = .ok (.int 0) 3 := by
  refine ⟨?_, rfl⟩
  have hget0 : (105 :: (ds ++ [101]))[0]? = some 105 := by simp
  have hdrop1 : (105 :: (ds ++ [101])).drop 1 = ds ++ 101 :: [] := by simp
  have hget1 : (105 :: (ds ++ [101]))[1]? = some 48 :=
    drop_cons_getElem (t := t ++ 101 :: []) (by rw [hdrop1, hz]; simp)
  have hgd : (105 :: (ds ++ [101])).getD 1 0 = 48 :=
    getD_of_drop (t := t ++ 101 :: []) (by rw [hdrop1, hz]; simp)
  have hint : nextInteger (105 :: (ds ++ [101])) 0 = .fail .leadingZero 1 := by
    have h45 : ¬ (48 : Nat) = 45 := by omega
    have hrun : intLoop (105 :: (ds ++ [101])) 1 1 1 ((105 :: (ds ++ [101])).drop 1)
        (intFinish (105 :: (ds ++ [101])) 1 1)
        = intFinish (105 :: (ds ++ [101])) 1 1 (1 + ds.length) := by
      rw [hdrop1]
      exact intLoop_run _ _ _ _ _ [] _ hd
    simp only [nextInteger, hget0, ne_eq, not_true, if_false, Nat.zero_add, hget1, h45, hrun,
      intFinish, if_neg (show ¬ (1 : Nat) = 1 + ds.length by omega),
      if_pos (⟨hgd, show 1 < 1 + ds.length - 1 by omega⟩ : _ ∧ _)]
  apply Decode_fst_fail
  rw [decFuel_succ, nextObjectF_int _ _ 0 hget0, hint]
  rfl

theorem C5_witness :
    (Decode (NewDecoder (105 :: ([48, 49, 50] ++ [101])))).1 = .fail .leadingZero 1 ∧
    (Decode (NewDecoder [105, 48, 101])).1 = .ok (.int 0) 3 :=
  C5_leading_zero [48, 49, 50] (by decide) [49, 50] rfl (by decide)

/-- C6: when a bencoded string declares a length greater than the number
of bytes remaining after the colon, decoding fails with the
insufficient-data error and returns no truncated string; when exactly
the declared number of bytes remains, decoding succeeds with exactly
those bytes and consumes the whole buffer. -/
theorem C6_length_exactness (n : Nat) (payload : List Nat) (hn : n < 2 ^ 63) :
    (payload.length < n →
      (Decode (NewDecoder (toDecimal n ++ 58 :: payload))).1 = .fail .insufficient 0) ∧
    (payload.length = n →
      (Decode (NewDecoder (toDecimal n ++ 58 :: payload))).1
        = .ok (.str payload) (toDecimal n ++ 58 :: payload).length) := by
  obtain ⟨c, ds, hcds⟩ := List.exists_cons_of_ne_nil (toDecimal_ne_nil n)
  have hcdig : 48 ≤ c ∧ c ≤ 57 := toDecimal_digits n c (hcds ▸ List.mem_cons_self c ds)
  have hget : (toDecimal n ++ 58 :: payload)[0]? = some c :=
    drop_cons_getElem (t := ds ++ 58 :: payload) (by rw [List.drop_zero, hcds]; simp)
  have hstr := nextString_spec (toDecimal n ++ 58 :: payload) 0 n payload
    (by rw [List.drop_zero]) hn
  constructor
  · intro hlt
    rw [if_pos hlt] at hstr
    apply Decode_fst_fail
    rw [decFuel_succ, nextObjectF_str _ _ 0 c hget hcdig, hstr]
    rfl
  · intro heq
    rw [if_neg (by omega)] at hstr
    apply Decode_fst_ok
    rw [decFuel_succ, nextObjectF_str _ _ 0 c hget hcdig, hstr]
    show withConsume (toDecimal n ++ 58 :: payload)
      (.ok (.str (payload.take n)) (0 + (toDecimal n).length + 1 + n), false) = _
    rw [withConsume_ok]
    have htake : payload.take n = payload := by
      rw [← heq]
      exact List.take_length payload
    have hpos : 0 + (toDecimal n).length + 1 + n
        = (toDecimal n ++ 58 :: payload).length := by
      simp
      omega
    rw [htake, hpos]

theorem C6_witness :
    ((Decode (NewDecoder (toDecimal 6 ++ 58 :: [119, 111, 114, 108, 100]))).1
        = .fail .insufficient 0) ∧
    ((Decode (NewDecoder (toDecimal 5 ++ 58 :: [119, 111, 114, 108, 100]))).1
        = .ok (.str [119, 111, 114, 108, 100])
            (toDecimal 5 ++ 58 :: [119, 111, 114, 108, 100]).length) :=
  ⟨(C6_length_exactness 6 [119, 111, 114, 108, 100] (by decide)).1 (by decide),
   (C6_length_exactness 5 [119, 111, 114, 108, 100] (by decide)).2 (by decide)⟩

/-- C7 counterexample: a buffer holding only the list opener l (zero
well-formed elements, then buffer end, no closing e) does not fail with
the unterminated-container error: the Go code indexes the stream out of
range right after skipping the l, a runtime panic. -/
theorem C7_counterexample :
    (Decode (NewDecoder [108])).1 = .crash ∧
    (∀ e p, (PRes.crash : PRes Bvalue) ≠ .fail e p) :=
  ⟨rfl, fun e p h => PRes.noConfusion h⟩

/-- C7 (amended): for every input in which a list is opened with l and
the buffer ends after one or more well-formed elements without a closing
e, decoding fails with the unterminated-container error ErrorNoTerminator
and no list value is returned. -/
theorem C7_unterminated (vs : List Bvalue) (hne : vs ≠ [])
    (hwf : ∀ v ∈ vs, wfV v = true ∧ noEmptyV v = true) :
    (Decode (NewDecoder (108 :: encodeItems vs))).1
      = .fail .noTerminator (108 :: encodeItems vs).length := by
  have hmem : ∀ u ∈ vs, DecSpec u ∧ noEmptyV u = true := fun u hu =>
    ⟨rt_obj u (hwf u hu).1 (hwf u hu).2, (hwf u hu).2⟩
  cases vs with
  | nil => exact absurd rfl hne
  | cons v0 ls =>
    obtain ⟨c1, t1, hct1, hc1ne⟩ :=
      encHead_ne_close v0 (hmem v0 (List.mem_cons_self v0 ls)).2
    have hdropB : (108 :: encodeItems (v0 :: ls)).drop 0
        = 108 :: c1 :: (t1 ++ encodeItems ls) := by
      rw [List.drop_zero, encodeItems, hct1]
      simp
    have hfuel : needLoop (v0 :: ls) ≤ 2 * (108 :: encodeItems (v0 :: ls)).length := by
      have h1 := needLoop_le (v0 :: ls)
        (fun u hu => ⟨(hmem u hu).2, needV_le u (hmem u hu).2⟩)
      simp only [List.length_cons] at *
      omega
    apply Decode_fst_fail
    rw [decFuel_succ, nextObjectF_list _ _ 0 (drop_cons_getElem hdropB)]
    rw [nextListF_open (2 * (108 :: encodeItems (v0 :: ls)).length)
      (108 :: encodeItems (v0 :: ls)) 0 c1 _ hdropB hc1ne]
    rw [rt_listLoop_trunc (v0 :: ls) (by simp) hmem []
      (2 * (108 :: encodeItems (v0 :: ls)).length) (108 :: encodeItems (v0 :: ls)) 1
      hfuel (by simp)]
    have hpos : 1 + (encodeItems (v0 :: ls)).length
        = (108 :: encodeItems (v0 :: ls)).length := by
      simp
      omega
    rw [hpos]
    rfl

theorem C7_witness :
    (Decode (NewDecoder (108 :: encodeItems [.int 15155]))).1
      = .fail .noTerminator (108 :: encodeItems [.int 15155]).length :=
  C7_unterminated [.int 15155] (by simp) (by decide)

/-- C8: after a successful decode that advances the cursor to the end of
the buffer, the Consumed flag of the decoder becomes true, and a further
Decode call returns the distinct exhausted-stream error ErrorConsumed
(not a parse error or a value) and leaves the state unchanged. -/
theorem C8_exhausted (st : DecSt) (v : Bvalue) (p : Nat)
    (h : (Decode st).1 = .ok v p) (hp : p = st.stream.length) :
    (Decode st).2.Consumed = true ∧
    (Decode (Decode st).2).1 = .fail .consumed p ∧
    (Decode (Decode st).2).2 = (Decode st).2 := by
  rcases hrun : nextObjectF (decFuel st.stream) st.stream st.pos st.Consumed with ⟨r1, c1⟩
  have hD : Decode st
      = match (r1, c1) with
        | (.crash, _) => (.crash, st)
        | (.fail e q, c) => (.fail e q, ⟨st.stream, q, c⟩)
        | (.ok w q, c) => (.ok w q, ⟨st.stream, q, c⟩) := by
    unfold Decode
    rw [hrun]
  cases r1 with
  | crash =>
    rw [hD] at h
    exact absurd h (fun hh => PRes.noConfusion hh)
  | fail e q =>
    rw [hD] at h
    exact absurd h (fun hh => PRes.noConfusion hh)
  | ok w q =>
    rw [hD] at h
    simp only at h
    injection h with hw hq
    subst hw
    subst hq
    have hc1 : c1 = true :=
      nextObjectF_ok_cons _ _ _ _ _ _ _ hrun (by omega)
    subst hc1
    have hD2 : Decode st = (.ok w q, ⟨st.stream, q, true⟩) := hD
    rw [hD2]
    refine ⟨rfl, ?_, ?_⟩
    · show (Decode ⟨st.stream, q, true⟩).1 = PRes.fail DErr.consumed q
      unfold Decode
      rw [decFuel_succ, nextObjectF_consumed]
    · show (Decode ⟨st.stream, q, true⟩).2 = (⟨st.stream, q, true⟩ : DecSt)
      unfold Decode
      rw [decFuel_succ, nextObjectF_consumed]

theorem C8_witness :
    (Decode (NewDecoder [105, 50, 51, 101])).2.Consumed = true ∧
    (Decode (Decode (NewDecoder [105, 50, 51, 101])).2).1 = .fail .consumed 4 ∧
    (Decode (Decode (NewDecoder [105, 50, 51, 101])).2).2
      = (Decode (NewDecoder [105, 50, 51, 101])).2 :=
  C8_exhausted (NewDecoder [105, 50, 51, 101]) (.int 23) 4 rfl rfl

/-- C9: decoding a dictionary stream holding two entries with the same
key bytes succeeds without an error, and the resulting Dictionary binds
that key to the value of the last occurrence in the stream (the Go map
assignment silently overwrites). -/
theorem C9_duplicate_keys (k : List Nat) (v1 v2 : Bvalue)
    (hk : k ≠ []) (hklen : k.length < 2 ^ 63)
    (h1w : wfV v1 = true) (h1n : noEmptyV v1 = true)
    (h2w : wfV v2 = true) (h2n : noEmptyV v2 = true) :
    (Decode (NewDecoder (100 :: (encodeString k ++ (encodeObject v1
        ++ (encodeString k ++ (encodeObject v2 ++ [101]))))))).1
      = .ok (.dict [(k, v2)])
          (100 :: (encodeString k ++ (encodeObject v1
            ++ (encodeString k ++ (encodeObject v2 ++ [101]))))).length := by
  set s : List Nat := 100 :: (encodeString k ++ (encodeObject v1
    ++ (encodeString k ++ (encodeObject v2 ++ [101])))) with hs
  have hmem : ∀ e ∈ [(k, v1), (k, v2)],
      DecSpec e.2 ∧ noEmptyV e.2 = true ∧ e.1 ≠ [] ∧ e.1.length < 2 ^ 63 := by
    intro e he
    rcases List.mem_cons.mp he with h | h
    · subst h
      exact ⟨rt_obj v1 h1w h1n, h1n, hk, hklen⟩
    · rcases List.mem_cons.mp h with h2 | h2
      · subst h2
        exact ⟨rt_obj v2 h2w h2n, h2n, hk, hklen⟩
      · exact absurd h2 (List.not_mem_nil e)
  have hents : entsBytes [(k, v1), (k, v2)]
      = encodeString k ++ (encodeObject v1 ++ (encodeString k ++ encodeObject v2)) := by
    simp [entsBytes]
  have hsdrop : s.drop 1 = entsBytes [(k, v1), (k, v2)] ++ 101 :: [] := by
    rw [hs, hents]
    simp
  obtain ⟨c1, ds1, hcds1⟩ := List.exists_cons_of_ne_nil (toDecimal_ne_nil k.length)
  have hc1dig : 48 ≤ c1 ∧ c1 ≤ 57 :=
    toDecimal_digits _ c1 (hcds1 ▸ List.mem_cons_self c1 ds1)
  have hdropB : s.drop 0 = 100 :: c1 :: ((ds1 ++ 58 :: k) ++ (encodeObject v1
      ++ (encodeString k ++ (encodeObject v2 ++ [101])))) := by
    rw [List.drop_zero, hs, encodeString_of_ne_nil hk, hcds1]
    simp
  have hlens : s.length = (entsBytes [(k, v1), (k, v2)]).length + 2 := by
    rw [hs, hents]
    simp
    omega
  have hfuel : needDLoop [(k, v1), (k, v2)] ≤ 2 * s.length := by
    have h1 := needDLoop_le [(k, v1), (k, v2)]
      (fun e he => ⟨(hmem e he).2.1, needV_le e.2 (hmem e he).2.1⟩)
    omega
  apply Decode_fst_ok
  rw [decFuel_succ, nextObjectF_dict _ _ 0 (drop_cons_getElem hdropB),
    nextDictF_open (2 * s.length) s 0 c1 _ hdropB (by omega),
    rt_dictLoop [(k, v1), (k, v2)] (by simp) hmem [] (2 * s.length) s 1 [] hfuel hsdrop]
  have hfold : ([(k, v1), (k, v2)].foldl (fun a e => mapInsert a e.1 e.2) [])
      = [(k, v2)] := by
    simp [mapInsert]
  rw [hfold]
  have hpos : 1 + (entsBytes [(k, v1), (k, v2)]).length + 1 = s.length := by
    omega
  rw [hpos]
  rfl

theorem C9_witness :
    (Decode (NewDecoder (100 :: (encodeString [97] ++ (encodeObject (.int 1)
        ++ (encodeString [97] ++ (encodeObject (.int 2) ++ [101]))))))).1
      = .ok (.dict [([97], .int 2)])
          (100 :: (encodeString [97] ++ (encodeObject (.int 1)
            ++ (encodeString [97] ++ (encodeObject (.int 2) ++ [101]))))).length :=
  C9_duplicate_keys [97] (.int 1) (.int 2) (by simp) (by decide)
    (by decide) (by decide) (by decide) (by decide)
